import Mathlib

/-!
Verification development for the web-scraper crawl engine in `main.py`.

URLs are modelled as `List Char`.  The helper functions from Python's
standard library (`urllib.parse.urlsplit`, `urlparse`, `urlunparse`,
`parse_qs`, `urlencode`, `urljoin`, `str.lower`, `str.strip`,
`str.replace`) are shallowly embedded below, following the CPython 3.11
implementations; `str.lower` is modelled for ASCII and percent-decoding
is modelled at the byte level (the development only exercises ASCII
data).  The repository's own functions (`normalize_url`,
`normalize_url_for_deduplication`, `is_same_domain`, `extract_links`,
`extract_content`, `scrape_page`, `crawl_website` and the unlimited
streaming loop) are translated line by line on top of these.
-/

namespace Scrap

abbrev Chars := List Char

/-- ASCII model of Python `str.lower` on a single character: map the
code points of `A`-`Z` (65-90) to those of `a`-`z`. -/
def charLower (c : Char) : Char :=
  if 65 ≤ c.toNat ∧ c.toNat ≤ 90 then Char.ofNat (c.toNat + 32) else c

/-- ASCII model of Python `str.lower`. -/
def pyLower (l : Chars) : Chars := l.map charLower

/-- Python whitespace characters, by code point: space, tab, newline,
vertical tab, form feed, carriage return (ASCII model of `str.strip`'s
default set). -/
def isPyWs (c : Char) : Bool :=
  c.toNat = 32 ∨ c.toNat = 9 ∨ c.toNat = 10 ∨ c.toNat = 11 ∨ c.toNat = 12 ∨ c.toNat = 13

/-- Model of Python `str.strip()` (both ends). -/
def pyStripFull (l : Chars) : Chars :=
  ((l.dropWhile isPyWs).reverse.dropWhile isPyWs).reverse

/-- Replacement scan with a step bound; every step consumes at least
one character of `l` when `old` is nonempty, so a bound of `l.length`
is always sufficient. -/
def pyReplaceAux (old new : Chars) : Nat → Chars → Chars
  | 0, l => l
  | _ + 1, [] => []
  | n + 1, c :: rest =>
    if old.isPrefixOf (c :: rest) then
      new ++ pyReplaceAux old new n ((c :: rest).drop old.length)
    else
      c :: pyReplaceAux old new n rest

/-- Model of Python `str.replace(old, new)` (all non-overlapping
occurrences, scanned left to right).  The `old = []` case mirrors
Python's insert-between-every-character behaviour. -/
def pyReplace (l : Chars) (old new : Chars) : Chars :=
  match old with
  | [] => new ++ l.flatMap (fun c => c :: new)
  | _ :: _ => pyReplaceAux old new l.length l

/-- Split a list at the first character satisfying `p`; the second
component is `none` when no character matches. -/
def splitAtFirst (p : Char → Bool) : Chars → Chars × Option Chars
  | [] => ([], none)
  | c :: cs =>
    if p c then ([], some cs)
    else
      let r := splitAtFirst p cs
      (c :: r.1, r.2)

/-- Split at the last occurrence of `c`; `none` when `c` is absent. -/
def splitAtLast (c : Char) (l : Chars) : Option (Chars × Chars) :=
  match splitAtFirst (fun x => x = c) l.reverse with
  | (a, some b) => some (b.reverse, a.reverse)
  | (_, none) => none

/-- Take characters until the predicate holds (first component), the
remainder starts with the matching character. -/
def splitUntil (p : Char → Bool) : Chars → Chars × Chars
  | [] => ([], [])
  | c :: cs =>
    if p c then ([], c :: cs)
    else
      let r := splitUntil p cs
      (c :: r.1, r.2)

/-- Model of Python `str.split(sep)` for a single-character separator. -/
def splitAll (c : Char) : Chars → List Chars
  | [] => [[]]
  | x :: xs =>
    if x = c then [] :: splitAll c xs
    else
      match splitAll c xs with
      | [] => [[x]]
      | h :: t => (x :: h) :: t

/-- Substring containment, modelling Python's `in` on strings. -/
def containsSub (needle : Chars) : Chars → Bool
  | [] => needle.isPrefixOf []
  | c :: cs => needle.isPrefixOf (c :: cs) || containsSub needle cs

def isAsciiAlpha (c : Char) : Bool :=
  (97 ≤ c.toNat ∧ c.toNat ≤ 122) ∨ (65 ≤ c.toNat ∧ c.toNat ≤ 90)

def isAsciiDigit (c : Char) : Bool := 48 ≤ c.toNat ∧ c.toNat ≤ 57

def isAsciiAlphaNum (c : Char) : Bool := isAsciiAlpha c ∨ isAsciiDigit c

/-- Characters allowed in a URL scheme (CPython `scheme_chars`): ASCII
letters, digits, plus (43), minus (45), dot (46). -/
def isSchemeChar (c : Char) : Bool :=
  isAsciiAlphaNum c ∨ c.toNat = 43 ∨ c.toNat = 45 ∨ c.toNat = 46

/-- WHATWG C0-control-or-space predicate used by CPython `urlsplit` to
left-strip the URL. -/
def isC0OrSpace (c : Char) : Bool := c.toNat ≤ 32

/-- CPython `urlsplit` removes every tab, carriage return and newline
from the URL before parsing. -/
def stripTabCrLf (l : Chars) : Chars :=
  l.filter (fun c => ¬ (c = '\t' ∨ c = '\r' ∨ c = '\n'))

def netDelim (c : Char) : Bool := c = '/' ∨ c = '?' ∨ c = '#'

structure SplitResult where
  scheme : Chars
  netloc : Chars
  path : Chars
  query : Chars
  fragment : Chars
deriving DecidableEq

structure ParseResult where
  scheme : Chars
  netloc : Chars
  path : Chars
  params : Chars
  query : Chars
  fragment : Chars
deriving DecidableEq

/-- Model of CPython 3.11 `urllib.parse.urlsplit` with a default scheme.
Raises (returns `.error`) exactly on a mismatched `[`/`]` bracket in the
netloc ("Invalid IPv6 URL"); bracket-matched hosts are assumed valid. -/
def urlsplitD (dflt : Chars) (url0 : Chars) : Except Unit SplitResult :=
  let url1 := stripTabCrLf (url0.dropWhile isC0OrSpace)
  let sr :=
    match splitAtFirst (fun c => c = ':') url1 with
    | (before, some after) =>
      match before with
      | [] => (dflt, url1)
      | b :: bs =>
        if isAsciiAlpha b ∧ (b :: bs).all isSchemeChar then (pyLower (b :: bs), after)
        else (dflt, url1)
    | (_, none) => (dflt, url1)
  let nr :=
    match sr.2 with
    | '/' :: '/' :: rest => splitUntil netDelim rest
    | other => ([], other)
  if (nr.1.any (fun c => c = '[') ∧ ¬ nr.1.any (fun c => c = ']')) ∨
      (nr.1.any (fun c => c = ']') ∧ ¬ nr.1.any (fun c => c = '[')) then
    .error ()
  else
    let fr :=
      match splitAtFirst (fun c => c = '#') nr.2 with
      | (a, some b) => (a, b)
      | (a, none) => (a, [])
    let qr :=
      match splitAtFirst (fun c => c = '?') fr.1 with
      | (a, some b) => (a, b)
      | (a, none) => (a, [])
    .ok ⟨sr.1, nr.1, qr.1, qr.2, fr.2⟩

/-- CPython `_splitparams`: split `;params` off the last path segment. -/
def splitparams (l : Chars) : Chars × Chars :=
  match splitAtLast '/' l with
  | some (pre, seg) =>
    (match splitAtFirst (fun c => c = ';') seg with
     | (a, some b) => (pre ++ '/' :: a, b)
     | (_, none) => (l, []))
  | none =>
    match splitAtFirst (fun c => c = ';') l with
    | (a, some b) => (a, b)
    | (_, none) => (l, [])

/-- Model of `urllib.parse.urlparse` with a default scheme. -/
def urlparseD (dflt : Chars) (url : Chars) : Except Unit ParseResult :=
  (urlsplitD dflt url).map fun r =>
    let pp := splitparams r.path
    ⟨r.scheme, r.netloc, pp.1, pp.2, r.query, r.fragment⟩

/-- Model of `urllib.parse.urlparse` as called in `main.py`. -/
def pyUrlparse (url : Chars) : Except Unit ParseResult := urlparseD [] url

/-- Model of `urllib.parse.urlunsplit`. -/
def urlunsplitCore (scheme netloc url query fragment : Chars) : Chars :=
  let u1 :=
    if netloc ≠ [] ∨ url.take 2 = ['/', '/'] then
      '/' :: '/' :: netloc ++
        (match url with
         | [] => []
         | c :: cs => if c ≠ '/' then '/' :: c :: cs else c :: cs)
    else url
  let u2 := if scheme ≠ [] then scheme ++ ':' :: u1 else u1
  let u3 := if query ≠ [] then u2 ++ '?' :: query else u2
  if fragment ≠ [] then u3 ++ '#' :: fragment else u3

/-- Model of `urllib.parse.urlunparse`. -/
def pyUrlunparse (r : ParseResult) : Chars :=
  urlunsplitCore r.scheme r.netloc
    (if r.params ≠ [] then r.path ++ ';' :: r.params else r.path) r.query r.fragment

def isHexDigit (c : Char) : Bool :=
  isAsciiDigit c ∨ ('a' ≤ c ∧ c ≤ 'f') ∨ ('A' ≤ c ∧ c ≤ 'F')

def hexVal (c : Char) : Nat :=
  if isAsciiDigit c then c.toNat - 48
  else if 'a' ≤ c ∧ c ≤ 'f' then c.toNat - 87
  else c.toNat - 55

/-- Byte-level model of `urllib.parse.unquote`: a `%` followed by two
hex digits decodes to the corresponding byte (the development only
exercises ASCII data, so multi-byte UTF-8 sequences are not recombined). -/
def pyUnquote : Chars → Chars
  | [] => []
  | c :: rest =>
    if c = '%' then
      match rest with
      | h1 :: h2 :: rest2 =>
        if isHexDigit h1 ∧ isHexDigit h2 then
          Char.ofNat (16 * hexVal h1 + hexVal h2) :: pyUnquote rest2
        else '%' :: pyUnquote (h1 :: h2 :: rest2)
      | other => '%' :: pyUnquote other
    else c :: pyUnquote rest

def plusToSpace (l : Chars) : Chars :=
  l.map (fun c => if c = '+' then ' ' else c)

/-- Model of `urllib.parse.parse_qsl` with default arguments: split the
query on `&`, skip empty chunks, skip chunks without `=` and chunks with
an empty value, plus-decode and percent-decode names and values. -/
def parseQsl (q : Chars) : List (Chars × Chars) :=
  (splitAll '&' q).foldr
    (fun part acc =>
      if part = [] then acc
      else
        match splitAtFirst (fun c => c = '=') part with
        | (_, none) => acc
        | (k, some v) =>
          if v = [] then acc
          else (pyUnquote (plusToSpace k), pyUnquote (plusToSpace v)) :: acc)
    []

/-- One insertion step of `parse_qs`'s dict building: append the value
to an existing key's list, or append a new key at the end. -/
def groupInsert (acc : List (Chars × List Chars)) (kv : Chars × Chars) :
    List (Chars × List Chars) :=
  if acc.any (fun e => e.1 = kv.1) then
    acc.map (fun e => if e.1 = kv.1 then (e.1, e.2 ++ [kv.2]) else e)
  else acc ++ [(kv.1, [kv.2])]

def groupFold (acc : List (Chars × List Chars)) (l : List (Chars × Chars)) :
    List (Chars × List Chars) :=
  l.foldl groupInsert acc

/-- Model of `urllib.parse.parse_qs`: group `parse_qsl` pairs into an
insertion-ordered association list of key to list of values. -/
def parseQs (q : Chars) : List (Chars × List Chars) :=
  groupFold [] (parseQsl q)

/-- Model of `urllib.parse.quote_plus` (characters kept by `quote`'s
`_ALWAYS_SAFE` set, space to `+`, everything else percent-encoded as
uppercase hex of its UTF-8 bytes). -/
def hexDigitU (n : Nat) : Char :=
  if n < 10 then Char.ofNat (48 + n) else Char.ofNat (55 + n)

def pctByte (b : Nat) : Chars := ['%', hexDigitU (b / 16), hexDigitU (b % 16)]

def charUtf8 (c : Char) : List Nat :=
  let n := c.toNat
  if n < 128 then [n]
  else if n < 2048 then [192 + n / 64, 128 + n % 64]
  else if n < 65536 then [224 + n / 4096, 128 + n / 64 % 64, 128 + n % 64]
  else [240 + n / 262144, 128 + n / 4096 % 64, 128 + n / 64 % 64, 128 + n % 64]

def isQuoteSafe (c : Char) : Bool :=
  isAsciiAlphaNum c ∨ c = '_' ∨ c = '.' ∨ c = '-' ∨ c = '~'

def quotePlus (l : Chars) : Chars :=
  l.flatMap fun c =>
    if isQuoteSafe c then [c]
    else if c = ' ' then ['+']
    else (charUtf8 c).flatMap pctByte

/-- Model of `urllib.parse.urlencode(params, doseq=True)` on the ordered
association list produced by `parse_qs`. -/
def urlencodeSeq (ps : List (Chars × List Chars)) : Chars :=
  List.intercalate ['&']
    (ps.flatMap fun kv => kv.2.map fun v => quotePlus kv.1 ++ '=' :: quotePlus v)

/-! ## The repository's URL helpers (`main.py`, class `WebScraper`) -/

/-- The tracking-parameter denylist of
`WebScraper.normalize_url_for_deduplication` (`main.py` lines 118-120),
exactly as written in the source. -/
def trackingParams : List Chars :=
  ["utm_source".toList, "utm_medium".toList, "utm_campaign".toList,
   "utm_content".toList, "utm_term".toList,
   "fbclid".toList, "gclid".toList, "ref".toList, "source".toList,
   "_ga".toList, "_gl".toList, "mc_cid".toList, "mc_eid".toList,
   "campaign".toList, "medium".toList, "content".toList, "term".toList,
   "msclkid".toList, "wbraid".toList, "gbraid".toList]

/-- The filter test of `normalize_url_for_deduplication` on one
`parse_qs` dictionary entry: `key.lower() not in tracking_params`. -/
def keepParam (kv : Chars × List Chars) : Bool := ¬ pyLower kv.1 ∈ trackingParams

/-- The same key test on one raw query pair. -/
def keepPair (kv : Chars × Chars) : Bool := ¬ pyLower kv.1 ∈ trackingParams

/-- Python `str.rstrip('/')`: drop every trailing slash. -/
def rstripSlash (l : Chars) : Chars :=
  (l.reverse.dropWhile (fun c => c = '/')).reverse

/-- `WebScraper.normalize_url` (`main.py` lines 63-78): drop the
fragment, strip trailing slashes from the path unless the path is
exactly `/`; on a parse error the raw URL is returned unchanged. -/
def normalize_url (url : Chars) : Chars :=
  match pyUrlparse url with
  | .error _ => url
  | .ok p =>
    pyUrlunparse
      ⟨p.scheme, p.netloc,
       (if p.path ≠ ['/'] then rstripSlash p.path else p.path),
       p.params, p.query, []⟩

/-- `WebScraper.normalize_url_for_deduplication` (`main.py` lines
108-141): lower-case and strip the whole URL, drop tracking query
parameters, strip all trailing slashes from the path, drop the fragment;
on a parse error the lower-cased stripped URL is returned. -/
def normalize_url_for_deduplication (url : Chars) : Chars :=
  let u := pyStripFull (pyLower url)
  match pyUrlparse u with
  | .error _ => u
  | .ok p =>
    let filtered := (parseQs p.query).filter keepParam
    pyUrlunparse
      ⟨p.scheme, p.netloc, rstripSlash p.path, p.params, urlencodeSeq filtered, []⟩

/-- `WebScraper.is_same_domain` (`main.py` lines 55-61).  Note the third
disjunct uses Python `str.replace`, which removes every occurrence of
the substring `www.`, not only a leading prefix. -/
def is_same_domain (domain : Chars) (url : Chars) : Bool :=
  match pyUrlparse url with
  | .error _ => false
  | .ok p =>
    p.netloc = domain ∨ p.netloc = 'w' :: 'w' :: 'w' :: '.' :: domain ∨
      p.netloc = pyReplace domain "www.".toList []

/-- `WebScraper.is_duplicate_url` (`main.py` lines 143-146). -/
def is_duplicate_url (visited : List Chars) (url : Chars) : Bool :=
  normalize_url_for_deduplication url ∈ visited

/-- CPython `urllib.parse.uses_relative`. -/
def usesRelative (s : Chars) : Bool :=
  (["", "ftp", "http", "gopher", "nntp", "imap", "wais", "file", "https",
    "shttp", "mms", "prospero", "rtsp", "rtspu", "sftp", "svn", "svn+ssh",
    "ws", "wss"].map String.toList).contains s

/-- CPython `urllib.parse.uses_netloc`. -/
def usesNetloc (s : Chars) : Bool :=
  (["", "ftp", "http", "gopher", "nntp", "telnet", "imap", "wais", "file",
    "mms", "https", "shttp", "snews", "prospero", "rtsp", "rtspu", "rsync",
    "svn", "svn+ssh", "sftp", "nfs", "git", "git+ssh", "ws", "wss",
    "itms-services"].map String.toList).contains s

/-- Dot-segment resolution step of CPython `urljoin`. -/
def resolveSegments (segments : List Chars) : List Chars :=
  let resolved := segments.foldl
    (fun acc seg =>
      if seg = ['.', '.'] then acc.dropLast
      else if seg = ['.'] then acc
      else acc ++ [seg]) []
  if segments.getLast? = some ['.'] ∨ segments.getLast? = some ['.', '.'] then
    resolved ++ [[]]
  else resolved

/-- Model of CPython 3.11 `urllib.parse.urljoin`; propagates the
`ValueError` of `urlsplit` as `.error`. -/
def pyUrljoin (base url : Chars) : Except Unit Chars :=
  if base = [] then .ok url
  else if url = [] then .ok base
  else do
    let b ← urlparseD [] base
    let u ← urlparseD b.scheme url
    if ¬ (u.scheme = b.scheme ∧ usesRelative u.scheme) then
      return url
    else if usesNetloc u.scheme ∧ u.netloc ≠ [] then
      return pyUrlunparse ⟨u.scheme, u.netloc, u.path, u.params, u.query, u.fragment⟩
    else
      let netloc := if usesNetloc u.scheme then b.netloc else u.netloc
      if u.path = [] ∧ u.params = [] then
        let query := if u.query = [] then b.query else u.query
        return pyUrlunparse ⟨u.scheme, netloc, b.path, b.params, query, u.fragment⟩
      else
        let baseParts0 := splitAll '/' b.path
        let baseParts := if baseParts0.getLast? ≠ some [] then baseParts0.dropLast else baseParts0
        let segments :=
          match u.path with
          | '/' :: _ => splitAll '/' u.path
          | _ =>
            let segs := baseParts ++ splitAll '/' u.path
            match segs with
            | [] => []
            | x :: rest =>
              match rest.getLast? with
              | none => [x]
              | some lastSeg => x :: ((rest.dropLast.filter (fun s => s ≠ [])) ++ [lastSeg])
        let newPath0 := List.intercalate ['/'] (resolveSegments segments)
        let newPath := if newPath0 = [] then ['/'] else newPath0
        return pyUrlunparse ⟨u.scheme, netloc, newPath, u.params, u.query, u.fragment⟩

/-- `WebScraper.extract_links` (`main.py` lines 80-106).  The anchors'
`href` attributes are supplied in document order; the Python builtin
`set` accumulating the links is determinised as an insertion-ordered
duplicate-free list.  A parse error raised by `urljoin` aborts the loop
and, as in the source's `except` branch, the links gathered so far are
returned. -/
def extract_links (visited : List Chars) (domain : Chars) (hrefs : List Chars)
    (baseUrl : Chars) : List Chars :=
  go hrefs []
where
  go : List Chars → List Chars → List Chars
    | [], acc => acc
    | href0 :: rest, acc =>
      let href := pyStripFull href0
      if href = [] ∨ href.take 1 = ['#'] ∨ "mailto:".toList.isPrefixOf href ∨
          "tel:".toList.isPrefixOf href then
        go rest acc
      else
        match pyUrljoin baseUrl href with
        | .error _ => acc
        | .ok absUrl =>
          if is_same_domain domain absUrl ∧ ¬ is_duplicate_url visited absUrl then
            let n := normalize_url absUrl
            go rest (if n ∈ acc then acc else acc ++ [n])
          else go rest acc

/-! ## Content extraction (`WebScraper.extract_content`, lines 148-262)

The trafilatura and BeautifulSoup library calls are modelled as an
oracle holding their results for the page's HTML: the branch structure,
thresholds, title fallback chain and whitespace post-processing are the
repository's own code and are translated faithfully. -/

/-- One element matched by a content selector: its `get_text()` text and
its `get_text(separator=' ', strip=True)` text. -/
structure Elem where
  plain : Chars
  sepText : Chars
deriving DecidableEq

/-- Library results for one HTML document: `exc` set means some library
call raised an exception with that message (the whole body of
`extract_content` is wrapped in one `try`). -/
structure ExtractOracle where
  exc : Option Chars
  trafContent : Option Chars
  trafMeta : Option (Option Chars)
  soupTitle : Option Chars
  soupH1 : Option Chars
  selectorMatches : List (List Elem)
  paragraphs : List Chars
  bodyText : Option Chars
  docText : Chars
deriving DecidableEq

/-- Accumulator form of Python `str.split()` (split on whitespace runs,
dropping empty chunks); `acc` holds the current word reversed. -/
def pySplitWsAux : Chars → Chars → List Chars
  | [], acc => if acc = [] then [] else [acc.reverse]
  | c :: cs, acc =>
    if isPyWs c then
      if acc = [] then pySplitWsAux cs [] else acc.reverse :: pySplitWsAux cs []
    else pySplitWsAux cs (c :: acc)

/-- Model of Python `str.split()` with no arguments. -/
def pySplitWs (l : Chars) : List Chars := pySplitWsAux l []

def joinSplit (l : Chars) : Chars := List.intercalate [' '] (pySplitWs l)

/-- Python `max(elements, key=...)`: first element with maximal key. -/
def pyMaxBy (k : Elem → Nat) (l : List Elem) : Option Elem :=
  l.foldl
    (fun acc e =>
      match acc with
      | none => some e
      | some b => if k e > k b then some e else some b) none

structure PageRecord where
  created_at : Chars
  id : Chars
  source_url : Chars
  title : Chars
  content : Chars
deriving DecidableEq

/-- Title fallback of `extract_content`: `<title>` text stripped, else
first `<h1>` text stripped, else empty (lines 162-170 and 190-198). -/
def soupTitleFallback (o : ExtractOracle) : Chars :=
  match o.soupTitle with
  | some t => pyStripFull t
  | none =>
    match o.soupH1 with
    | some h => pyStripFull h
    | none => []

/-- The selector probing loop (lines 215-223): among each selector's
matches take the element with the longest `get_text()`, and keep its
separator text when its stripped plain text is longer than the best
content so far. -/
def selectorLoop (ms : List (List Elem)) : Chars :=
  ms.foldl
    (fun content elems =>
      match pyMaxBy (fun e => e.plain.length) elems with
      | none => content
      | some best =>
        if (pyStripFull best.plain).length > content.length then best.sepText
        else content) []

/-- `WebScraper.extract_content` (`main.py` lines 148-262).  `now` and
`idv` are the values produced by `datetime.now(timezone.utc)` and
`uuid.uuid4()` for this call. -/
def extract_content (o : ExtractOracle) (url now idv : Chars) : PageRecord :=
  match o.exc with
  | some e => ⟨now, idv, url, [], "Error extracting content: ".toList ++ e⟩
  | none =>
    match o.trafContent with
    | some ec =>
      if ec ≠ [] ∧ (pyStripFull ec).length > 50 then
        let t0 :=
          match o.trafMeta with
          | some (some t) => if t ≠ [] then pyStripFull t else []
          | _ => []
        let title := if t0 = [] then soupTitleFallback o else t0
        ⟨now, idv, url, title, joinSplit ec⟩
      else extractFallback o url now idv
    | none => extractFallback o url now idv
where
  /-- The BeautifulSoup fallback ladder (lines 187-252). -/
  extractFallback (o : ExtractOracle) (url now idv : Chars) : PageRecord :=
    let title := soupTitleFallback o
    let content1 := selectorLoop o.selectorMatches
    let content2 :=
      if (pyStripFull content1).length < 100 then
        if o.paragraphs ≠ [] then
          List.intercalate [' '] (o.paragraphs.filter (fun p => p.length > 20))
        else content1
      else content1
    let content3 :=
      if (pyStripFull content2).length < 50 then
        match o.bodyText with
        | some b => b
        | none => o.docText
      else content2
    ⟨now, idv, url, title, joinSplit content3⟩

/-! ## Page fetching and the crawl loops -/

/-- Outcome of `self.session.get(url)`: either a raised
`requests.RequestException`, or a response with status code, reason,
content-type header, the page's anchor `href`s in document order, and
the extraction oracle for its body. -/
inductive FetchOutcome where
  | exn (msg : Chars)
  | resp (status : Nat) (reason : Chars) (contentType : Chars)
      (hrefs : List Chars) (oracle : ExtractOracle)

/-- A deterministic network: the same URL always yields the same
response (the source fetches each page twice; the model returns the same
outcome both times). -/
def Web := Chars → FetchOutcome

/-- Message of the `requests.HTTPError` raised by
`Response.raise_for_status` for a 4xx/5xx status. -/
def httpErrorMsg (status : Nat) (reason url : Chars) : Chars :=
  Nat.toDigits 10 status ++
    (if status < 500 then " Client Error: " else " Server Error: ").toList ++
    reason ++ " for url: ".toList ++ url

/-- `WebScraper.scrape_page` (`main.py` lines 264-302): a raised
`RequestException` (including the `HTTPError` from `raise_for_status`,
which fires exactly for 400-599) yields an error record; a response
whose content-type does not contain `text/html` yields the fixed
non-HTML record; otherwise the body is passed to `extract_content`. -/
def scrape_page (web : Web) (url now idv : Chars) : PageRecord :=
  match web url with
  | .exn msg => ⟨now, idv, url, [], "Request error: ".toList ++ msg⟩
  | .resp status reason ctype _ o =>
    if 400 ≤ status ∧ status < 600 then
      ⟨now, idv, url, [], "Request error: ".toList ++ httpErrorMsg status reason url⟩
    else if ¬ containsSub "text/html".toList (pyLower ctype) then
      ⟨now, idv, url, "Non-HTML Content".toList, "Skipped non-HTML content".toList⟩
    else extract_content o url now idv

structure CrawlState where
  visited : List Chars
  frontier : List Chars
  records : List PageRecord
  scrapeLog : List Chars
  counter : Nat
deriving DecidableEq

/-- Deterministic stand-ins for `uuid.uuid4()` and
`datetime.now(timezone.utc)`: the n-th call of the crawl. -/
def genId (n : Nat) : Chars := 'i' :: 'd' :: Nat.toDigits 10 n

def genTime (n : Nat) : Chars := 't' :: Nat.toDigits 10 n

/-- The body of one successful pop: scrape the page, append its record,
then re-fetch the page and, if it returned 200 with an HTML
content-type, extract links and append the new ones to the frontier
(`main.py` lines 319-340; the state already has the URL marked
visited). -/
def processPage (web : Web) (domain : Chars) (s : CrawlState) (u : Chars) : CrawlState :=
  let rcd := scrape_page web u (genTime s.counter) (genId s.counter)
  let s1 : CrawlState :=
    ⟨s.visited, s.frontier, s.records ++ [rcd], s.scrapeLog ++ [u], s.counter + 1⟩
  match web u with
  | .exn _ => s1
  | .resp status _ ctype hrefs _ =>
    if status = 200 ∧ containsSub "text/html".toList (pyLower ctype) then
      let links := extract_links s1.visited domain hrefs u
      { s1 with
        frontier := links.foldl
          (fun q l => if l ∈ s1.visited ∨ l ∈ q then q else q ++ [l]) s1.frontier }
    else s1

/-- The `while` loop of `WebScraper.crawl_website` (`main.py` lines
309-341), run with explicit fuel: pop the head, skip it if the popped
string is already in the visited set, otherwise mark it visited and
process it. -/
def crawlLoop (web : Web) (domain : Chars) (maxPages : Nat) :
    Nat → CrawlState → CrawlState
  | 0, s => s
  | fuel + 1, s =>
    match s.frontier with
    | [] => s
    | u :: rest =>
      if s.records.length < maxPages then
        if u ∈ s.visited then
          crawlLoop web domain maxPages fuel { s with frontier := rest }
        else
          crawlLoop web domain maxPages fuel
            (processPage web domain { s with visited := u :: s.visited, frontier := rest } u)
      else s

/-- `self.domain` from `WebScraper.__init__` (line 52). -/
def domainOf (base : Chars) : Chars :=
  match pyUrlparse base with
  | .ok p => p.netloc
  | .error _ => []

/-- `WebScraper.crawl_website` (`main.py` lines 304-343). -/
def crawl_website (web : Web) (base : Chars) (maxPages fuel : Nat) : CrawlState :=
  crawlLoop web (domainOf base) maxPages fuel ⟨[], [normalize_url base], [], [], 0⟩

/-- The `while` loop of `scrape_stream_unlimited.generate_unlimited_stream`
(`main.py` lines 879-924): no page budget, and the visited check and
insertion use the enhanced normalized form of the popped URL. -/
def unlimitedLoop (web : Web) (domain : Chars) : Nat → CrawlState → CrawlState
  | 0, s => s
  | fuel + 1, s =>
    match s.frontier with
    | [] => s
    | u :: rest =>
      let nf := normalize_url_for_deduplication u
      if nf ∈ s.visited then
        unlimitedLoop web domain fuel { s with frontier := rest }
      else
        unlimitedLoop web domain fuel
          (processPage web domain { s with visited := nf :: s.visited, frontier := rest } u)

/-- The unlimited streaming crawl (`/scrape-stream-unlimited`). -/
def unlimited_crawl (web : Web) (base : Chars) (fuel : Nat) : CrawlState :=
  unlimitedLoop web (domainOf base) fuel ⟨[], [normalize_url base], [], [], 0⟩

/-! ## Concrete networks used by the counterexamples and witnesses -/

/-- Oracle of a page on which every extraction library call comes back
empty. -/
def emptyOracle : ExtractOracle := ⟨none, none, none, none, none, [], [], none, []⟩

/-- A site whose root page links to the same target twice, once with and
once without a `utm_source` tracking parameter. -/
def webPair : Web := fun u =>
  if u = "http://ex.com".toList then
    .resp 200 [] "text/html".toList
      ["http://ex.com/b".toList, "http://ex.com/b?utm_source=x".toList] emptyOracle
  else .resp 200 [] "text/html".toList [] emptyOracle

/-- A server answering every request with a `304` status and a
non-HTML content type. -/
def web304 : Web := fun _ =>
  .resp 304 "Not Modified".toList "text/plain".toList [] emptyOracle

/-- A network on which every request raises a `RequestException`. -/
def webExn : Web := fun _ => .exn "boom".toList

/-- Modelled from the spec (section 4.2 Domain Scope Filter): in scope
iff the URL's host equals the target domain, the domain prefixed with
`www.`, or the domain with a leading `www.` prefix stripped; malformed
URLs are out of scope. -/
def spec_in_scope (domain url : Chars) : Bool :=
  match pyUrlparse url with
  | .error _ => false
  | .ok p =>
    p.netloc = domain ∨ p.netloc = "www.".toList ++ domain ∨
      p.netloc = (if "www.".toList.isPrefixOf domain then domain.drop 4 else domain)

/-! ## Component-built URLs for the normalization claims

The algebraic claims about the two normalization strengths quantify
over URLs; they are stated over URLs built from well-formed components
(scheme, host, path, query pairs, optional fragment), the component
character classes being the usual unreserved URL characters. -/

/-- Host characters used by the component URLs: letters, digits, dot
(46), minus (45). -/
def isHostChar (c : Char) : Bool := isAsciiAlphaNum c ∨ c.toNat = 46 ∨ c.toNat = 45

/-- Path characters used by the component URLs: letters, digits, slash
(47), dot (46), minus (45), underscore (95). -/
def isPathChar (c : Char) : Bool :=
  isAsciiAlphaNum c ∨ c.toNat = 47 ∨ c.toNat = 46 ∨ c.toNat = 45 ∨ c.toNat = 95

/-- Query-pair characters used by the component URLs: letters, digits,
dot (46), minus (45), underscore (95). -/
def isQChar (c : Char) : Bool :=
  isAsciiAlphaNum c ∨ c.toNat = 46 ∨ c.toNat = 45 ∨ c.toNat = 95

def wfSchemeB : Chars → Bool
  | [] => false
  | b :: bs => isAsciiAlpha b && (b :: bs).all isSchemeChar

def wfHostB (h : Chars) : Bool := !h.isEmpty && h.all isHostChar

def wfPathB : Chars → Bool
  | [] => true
  | c :: cs => c = '/' && (c :: cs).all isPathChar

def wfPairB (kv : Chars × Chars) : Bool :=
  !kv.1.isEmpty && !kv.2.isEmpty && kv.1.all isQChar && kv.2.all isQChar

def wfQueryB (q : List (Chars × Chars)) : Bool := q.all wfPairB

def wfFragB : Option Chars → Bool
  | none => true
  | some f => f.all (fun c => !(isPyWs c))

/-- Well-formedness of the components of a URL. -/
def wfUrl (s h p : Chars) (q : List (Chars × Chars)) (f : Option Chars) : Prop :=
  wfSchemeB s = true ∧ wfHostB h = true ∧ wfPathB p = true ∧
    wfQueryB q = true ∧ wfFragB f = true

/-- Serialize query pairs as `k1=v1&k2=v2&...`. -/
def serializeQuery : List (Chars × Chars) → Chars
  | [] => []
  | [kv] => kv.1 ++ '=' :: kv.2
  | kv :: kv2 :: rest => kv.1 ++ '=' :: kv.2 ++ '&' :: serializeQuery (kv2 :: rest)

/-- The `?query` part of a component URL. -/
def qPart (q : List (Chars × Chars)) : Chars :=
  match q with
  | [] => []
  | _ :: _ => '?' :: serializeQuery q

/-- The `#fragment` part of a component URL. -/
def fPart (f : Option Chars) : Chars :=
  match f with
  | none => []
  | some fr => '#' :: fr

/-- Build the URL string `s://h p ?query #fragment` from components. -/
def mkUrl (s h p : Chars) (q : List (Chars × Chars)) (f : Option Chars) : Chars :=
  s ++ ':' :: '/' :: '/' :: (h ++ p ++ qPart q ++ fPart f)

def lowerQ (q : List (Chars × Chars)) : List (Chars × Chars) :=
  q.map (fun kv => (pyLower kv.1, pyLower kv.2))

/-- The conditional trailing-slash strip of `normalize_url`. -/
def condRstrip (p : Chars) : Chars := if p ≠ ['/'] then rstripSlash p else p

/-! ## Crawl-loop lemmas -/

lemma processPage_visited (web : Web) (d : Chars) (s : CrawlState) (u : Chars) :
    (processPage web d s u).visited = s.visited := by
  unfold processPage
  cases web u with
  | exn msg => rfl
  | resp st r ct hs o =>
    dsimp only
    split <;> rfl

lemma processPage_scrapeLog (web : Web) (d : Chars) (s : CrawlState) (u : Chars) :
    (processPage web d s u).scrapeLog = s.scrapeLog ++ [u] := by
  unfold processPage
  cases web u with
  | exn msg => rfl
  | resp st r ct hs o =>
    dsimp only
    split <;> rfl

lemma processPage_records (web : Web) (d : Chars) (s : CrawlState) (u : Chars) :
    (processPage web d s u).records =
      s.records ++ [scrape_page web u (genTime s.counter) (genId s.counter)] := by
  unfold processPage
  cases web u with
  | exn msg => rfl
  | resp st r ct hs o =>
    dsimp only
    split <;> rfl

lemma crawlLoop_stop (web : Web) (d : Chars) (mp fuel : Nat) (s : CrawlState)
    (h : mp ≤ s.records.length) : crawlLoop web d mp fuel s = s := by
  cases fuel with
  | zero => rfl
  | succ f =>
    unfold crawlLoop
    cases hf : s.frontier with
    | nil => rfl
    | cons u rest =>
      dsimp only
      rw [if_neg]
      omega

lemma crawlLoop_scrapeLog_prefix (web : Web) (d : Chars) (mp : Nat) :
    ∀ (fuel : Nat) (s : CrawlState),
      s.scrapeLog <+: (crawlLoop web d mp fuel s).scrapeLog := by
  intro fuel
  induction fuel with
  | zero => intro s; simp [crawlLoop]
  | succ f ih =>
    intro s
    unfold crawlLoop
    cases hf : s.frontier with
    | nil => simp
    | cons u rest =>
      dsimp only
      by_cases hb : s.records.length < mp
      · rw [if_pos hb]
        by_cases hv : u ∈ s.visited
        · rw [if_pos hv]
          exact ih ⟨s.visited, rest, s.records, s.scrapeLog, s.counter⟩
        · rw [if_neg hv]
          refine List.IsPrefix.trans ?_ (ih _)
          rw [processPage_scrapeLog]
          exact ⟨[u], rfl⟩
      · rw [if_neg hb]

lemma crawlLoop_records_prefix (web : Web) (d : Chars) (mp : Nat) :
    ∀ (fuel : Nat) (s : CrawlState),
      s.records <+: (crawlLoop web d mp fuel s).records := by
  intro fuel
  induction fuel with
  | zero => intro s; simp [crawlLoop]
  | succ f ih =>
    intro s
    unfold crawlLoop
    cases hf : s.frontier with
    | nil => simp
    | cons u rest =>
      dsimp only
      by_cases hb : s.records.length < mp
      · rw [if_pos hb]
        by_cases hv : u ∈ s.visited
        · rw [if_pos hv]
          exact ih ⟨s.visited, rest, s.records, s.scrapeLog, s.counter⟩
        · rw [if_neg hv]
          refine List.IsPrefix.trans ?_ (ih _)
          rw [processPage_records]
          exact ⟨_, rfl⟩
      · rw [if_neg hb]

lemma crawlLoop_nodup (web : Web) (d : Chars) (mp : Nat) :
    ∀ (fuel : Nat) (s : CrawlState),
      s.scrapeLog.Nodup → (∀ v ∈ s.scrapeLog, v ∈ s.visited) →
      (crawlLoop web d mp fuel s).scrapeLog.Nodup := by
  intro fuel
  induction fuel with
  | zero => intro s h _; simpa [crawlLoop] using h
  | succ f ih =>
    intro s hnd hsub
    unfold crawlLoop
    cases hf : s.frontier with
    | nil => exact hnd
    | cons u rest =>
      dsimp only
      by_cases hb : s.records.length < mp
      · rw [if_pos hb]
        by_cases hv : u ∈ s.visited
        · rw [if_pos hv]
          exact ih ⟨s.visited, rest, s.records, s.scrapeLog, s.counter⟩ hnd hsub
        · rw [if_neg hv]
          apply ih
          · rw [processPage_scrapeLog]
            simp only [List.nodup_append, List.nodup_cons]
            refine ⟨hnd, by simp, ?_⟩
            intro v hvq hv1
            simp only [List.mem_singleton] at hv1
            subst hv1
            exact hv (hsub v hvq)
          · intro v hv'
            rw [processPage_visited] at *
            rw [processPage_scrapeLog] at hv'
            simp only [List.mem_append, List.mem_singleton] at hv'
            rcases hv' with h1 | h1
            · exact List.mem_cons_of_mem _ (hsub v h1)
            · subst h1
              exact List.mem_cons_self _ _
      · rw [if_neg hb]
        exact hnd

lemma unlimitedLoop_nodup (web : Web) (d : Chars) :
    ∀ (fuel : Nat) (s : CrawlState),
      (s.scrapeLog.map normalize_url_for_deduplication).Nodup →
      (∀ v ∈ s.scrapeLog, normalize_url_for_deduplication v ∈ s.visited) →
      ((unlimitedLoop web d fuel s).scrapeLog.map normalize_url_for_deduplication).Nodup := by
  intro fuel
  induction fuel with
  | zero => intro s h _; simpa [unlimitedLoop] using h
  | succ f ih =>
    intro s hnd hsub
    unfold unlimitedLoop
    cases hf : s.frontier with
    | nil => exact hnd
    | cons u rest =>
      dsimp only
      by_cases hv : normalize_url_for_deduplication u ∈ s.visited
      · rw [if_pos hv]
        exact ih ⟨s.visited, rest, s.records, s.scrapeLog, s.counter⟩ hnd hsub
      · rw [if_neg hv]
        apply ih
        · rw [processPage_scrapeLog]
          simp only [List.map_append, List.map_cons, List.map_nil, List.nodup_append,
            List.nodup_cons]
          refine ⟨hnd, by simp, ?_⟩
          intro v hvq hv1
          simp only [List.mem_singleton] at hv1
          simp only [List.mem_map] at hvq
          rcases hvq with ⟨w, hw, hweq⟩
          rw [hv1] at hweq
          exact hv (hweq ▸ hsub w hw)
        · intro v hv'
          rw [processPage_visited] at *
          rw [processPage_scrapeLog] at hv'
          simp only [List.mem_append, List.mem_singleton] at hv'
          rcases hv' with h1 | h1
          · exact List.mem_cons_of_mem _ (hsub v h1)
          · subst h1
            exact List.mem_cons_self _ _

lemma crawlLoop_succ (web : Web) (d : Chars) (mp fuel : Nat) (s : CrawlState) :
    crawlLoop web d mp (fuel + 1) s =
      match s.frontier with
      | [] => s
      | u :: rest =>
        if s.records.length < mp then
          if u ∈ s.visited then
            crawlLoop web d mp fuel { s with frontier := rest }
          else
            crawlLoop web d mp fuel
              (processPage web d { s with visited := u :: s.visited, frontier := rest } u)
        else s := rfl

lemma crawlLoop_skip_step (web : Web) (d : Chars) (mp fuel : Nat) (s : CrawlState)
    (u : Chars) (rest : List Chars) (hf : s.frontier = u :: rest) (hv : u ∈ s.visited)
    (hb : s.records.length < mp) :
    crawlLoop web d mp (fuel + 1) s = crawlLoop web d mp fuel { s with frontier := rest } := by
  rw [crawlLoop_succ, hf]
  dsimp only
  rw [if_pos hb, if_pos hv]

lemma crawlLoop_scrape_step (web : Web) (d : Chars) (mp fuel : Nat) (s : CrawlState)
    (u : Chars) (rest : List Chars) (hf : s.frontier = u :: rest) (hv : u ∉ s.visited)
    (hb : s.records.length < mp) :
    crawlLoop web d mp (fuel + 1) s =
      crawlLoop web d mp fuel
        (processPage web d { s with visited := u :: s.visited, frontier := rest } u) := by
  rw [crawlLoop_succ, hf]
  dsimp only
  rw [if_pos hb, if_neg hv]

lemma processPage_exn (web : Web) (d : Chars) (s : CrawlState) (u : Chars) (msg : Chars)
    (h : web u = .exn msg) :
    processPage web d s u =
      ⟨s.visited, s.frontier,
       s.records ++ [⟨genTime s.counter, genId s.counter, u, [],
         "Request error: ".toList ++ msg⟩],
       s.scrapeLog ++ [u], s.counter + 1⟩ := by
  unfold processPage scrape_page
  rw [h]

/-! ## Character-class facts -/

lemma ne_of_toNat_ne {c d : Char} (h : c.toNat ≠ d.toNat) : c ≠ d :=
  fun he => h (he ▸ rfl)

/-- Numeric content of `isSchemeChar`. -/
lemma schemeChar_ranges {c : Char} (h : isSchemeChar c = true) :
    (97 ≤ c.toNat ∧ c.toNat ≤ 122) ∨ (65 ≤ c.toNat ∧ c.toNat ≤ 90) ∨
    (48 ≤ c.toNat ∧ c.toNat ≤ 57) ∨ c.toNat = 43 ∨ c.toNat = 45 ∨ c.toNat = 46 := by
  simp only [isSchemeChar, isAsciiAlphaNum, isAsciiAlpha, isAsciiDigit,
    decide_eq_true_eq, Bool.or_eq_true] at h
  tauto

lemma hostChar_ranges {c : Char} (h : isHostChar c = true) :
    (97 ≤ c.toNat ∧ c.toNat ≤ 122) ∨ (65 ≤ c.toNat ∧ c.toNat ≤ 90) ∨
    (48 ≤ c.toNat ∧ c.toNat ≤ 57) ∨ c.toNat = 46 ∨ c.toNat = 45 := by
  simp only [isHostChar, isAsciiAlphaNum, isAsciiAlpha, isAsciiDigit,
    decide_eq_true_eq, Bool.or_eq_true] at h
  tauto

lemma pathChar_ranges {c : Char} (h : isPathChar c = true) :
    (97 ≤ c.toNat ∧ c.toNat ≤ 122) ∨ (65 ≤ c.toNat ∧ c.toNat ≤ 90) ∨
    (48 ≤ c.toNat ∧ c.toNat ≤ 57) ∨ c.toNat = 47 ∨ c.toNat = 46 ∨ c.toNat = 45 ∨
    c.toNat = 95 := by
  simp only [isPathChar, isAsciiAlphaNum, isAsciiAlpha, isAsciiDigit,
    decide_eq_true_eq, Bool.or_eq_true] at h
  tauto

lemma qChar_ranges {c : Char} (h : isQChar c = true) :
    (97 ≤ c.toNat ∧ c.toNat ≤ 122) ∨ (65 ≤ c.toNat ∧ c.toNat ≤ 90) ∨
    (48 ≤ c.toNat ∧ c.toNat ≤ 57) ∨ c.toNat = 46 ∨ c.toNat = 45 ∨ c.toNat = 95 := by
  simp only [isQChar, isAsciiAlphaNum, isAsciiAlpha, isAsciiDigit,
    decide_eq_true_eq, Bool.or_eq_true] at h
  tauto

lemma ws_toNat {c : Char} (h : isPyWs c = true) :
    c.toNat = 32 ∨ c.toNat = 9 ∨ c.toNat = 10 ∨ c.toNat = 11 ∨ c.toNat = 12 ∨
    c.toNat = 13 := by
  simp only [isPyWs, decide_eq_true_eq] at h
  exact h

lemma not_ws_of_toNat {c : Char}
    (h : c.toNat ≠ 32 ∧ c.toNat ≠ 9 ∧ c.toNat ≠ 10 ∧ c.toNat ≠ 11 ∧ c.toNat ≠ 12 ∧
      c.toNat ≠ 13) : isPyWs c = false := by
  rw [Bool.eq_false_iff]
  intro hw
  have := ws_toNat hw
  tauto

lemma schemeChar_not_ws {c : Char} (h : isSchemeChar c = true) : isPyWs c = false := by
  have := schemeChar_ranges h
  exact not_ws_of_toNat (by omega)

lemma hostChar_not_ws {c : Char} (h : isHostChar c = true) : isPyWs c = false := by
  have := hostChar_ranges h
  exact not_ws_of_toNat (by omega)

lemma pathChar_not_ws {c : Char} (h : isPathChar c = true) : isPyWs c = false := by
  have := pathChar_ranges h
  exact not_ws_of_toNat (by omega)

lemma qChar_not_ws {c : Char} (h : isQChar c = true) : isPyWs c = false := by
  have := qChar_ranges h
  exact not_ws_of_toNat (by omega)

/-! ## Splitting lemmas -/

lemma splitAtFirst_of_forall {p : Char → Bool} {l : Chars}
    (h : ∀ c ∈ l, p c = false) : splitAtFirst p l = (l, none) := by
  induction l with
  | nil => rfl
  | cons c cs ih =>
    have hc := h c (List.mem_cons_self c cs)
    have ih' := ih (fun x hx => h x (List.mem_cons_of_mem c hx))
    simp [splitAtFirst, hc, ih']

lemma splitAtFirst_append {p : Char → Bool} {l r : Chars} {c : Char}
    (h : ∀ x ∈ l, p x = false) (hc : p c = true) :
    splitAtFirst p (l ++ c :: r) = (l, some r) := by
  induction l with
  | nil => simp [splitAtFirst, hc]
  | cons a as ih =>
    have ha := h a (List.mem_cons_self a as)
    have ih' := ih (fun x hx => h x (List.mem_cons_of_mem a hx))
    simp [splitAtFirst, ha, ih']

lemma splitAtFirst_some_inv {p : Char → Bool} :
    ∀ {l a b : Chars}, splitAtFirst p l = (a, some b) →
      ∃ ch, p ch = true ∧ l = a ++ ch :: b ∧ ∀ x ∈ a, p x = false := by
  intro l
  induction l with
  | nil => intro a b h; simp [splitAtFirst] at h
  | cons c cs ih =>
    intro a b h
    by_cases hc : p c
    · rw [splitAtFirst, if_pos hc] at h
      obtain ⟨rfl, rfl⟩ := Prod.mk.injEq .. ▸ And.intro (congrArg Prod.fst h).symm
        (Option.some.inj (congrArg Prod.snd h))
      exact ⟨c, hc, rfl, by simp⟩
    · rw [splitAtFirst, if_neg hc] at h
      cases hr : splitAtFirst p cs with
      | mk a1 o1 =>
        rw [hr] at h
        dsimp only at h
        have h1 : c :: a1 = a := congrArg Prod.fst h
        have h2 : o1 = some b := congrArg Prod.snd h
        subst h1
        subst h2
        obtain ⟨ch, hch, hcs, hall⟩ := ih hr
        refine ⟨ch, hch, by rw [hcs]; rfl, ?_⟩
        intro x hx
        rcases List.mem_cons.mp hx with rfl | hx'
        · simpa using hc
        · exact hall x hx'

lemma splitAtLast_some {c : Char} {l pre seg : Chars}
    (h : splitAtLast c l = some (pre, seg)) : l = pre ++ c :: seg ∧ c ∉ seg := by
  unfold splitAtLast at h
  cases hr : splitAtFirst (fun x => x = c) l.reverse with
  | mk a o =>
    rw [hr] at h
    cases o with
    | none => simp at h
    | some b =>
      dsimp only at h
      have h1 : b.reverse = pre := congrArg Prod.fst (Option.some.inj h)
      have h2 : a.reverse = seg := congrArg Prod.snd (Option.some.inj h)
      subst h1
      subst h2
      obtain ⟨ch, hch, hrev, hall⟩ := splitAtFirst_some_inv hr
      have hch' : ch = c := by simpa using hch
      rw [hch'] at hrev
      constructor
      · have := congrArg List.reverse hrev
        simpa using this
      · intro hmem
        have hca : c ∈ a := by simpa using hmem
        have := hall c hca
        simp at this

lemma splitparams_no_semi {l : Chars} (h : ';' ∉ l) : splitparams l = (l, []) := by
  unfold splitparams
  cases hsl : splitAtLast '/' l with
  | none =>
    dsimp only
    cases hsf : splitAtFirst (fun c => c = ';') l with
    | mk a o =>
      cases o with
      | none => rfl
      | some b =>
        obtain ⟨ch, hch, hdec, _⟩ := splitAtFirst_some_inv hsf
        have hch' : ch = ';' := by simpa using hch
        subst hch'
        exact absurd (by rw [hdec]; simp : (';' : Char) ∈ l) h
  | some pr =>
    obtain ⟨pre, seg⟩ := pr
    obtain ⟨hl, hcs⟩ := splitAtLast_some hsl
    have hseg : ∀ x ∈ seg, (decide (x = ';')) = false := by
      intro x hx
      have hxne : x ≠ ';' := by
        rintro rfl
        exact h (by rw [hl]; simp [hx])
      simpa using hxne
    dsimp only
    rw [splitAtFirst_of_forall hseg]

lemma splitUntil_append {p : Char → Bool} {l r : Chars}
    (h : ∀ x ∈ l, p x = false)
    (hr : r = [] ∨ ∃ c cs, r = c :: cs ∧ p c = true) :
    splitUntil p (l ++ r) = (l, r) := by
  induction l with
  | nil =>
    rcases hr with rfl | ⟨c, cs, rfl, hc⟩
    · rfl
    · simp [splitUntil, hc]
  | cons a as ih =>
    have ha := h a (List.mem_cons_self a as)
    have ih' := ih (fun x hx => h x (List.mem_cons_of_mem a hx))
    simp [splitUntil, ha, ih']

lemma splitAll_no_sep {c : Char} {l : Chars} (h : ∀ x ∈ l, x ≠ c) :
    splitAll c l = [l] := by
  induction l with
  | nil => rfl
  | cons a as ih =>
    have ha := h a (List.mem_cons_self a as)
    have ih' := ih (fun x hx => h x (List.mem_cons_of_mem a hx))
    simp [splitAll, ha, ih']

lemma splitAll_append {c : Char} {a r : Chars} (h : ∀ x ∈ a, x ≠ c) :
    splitAll c (a ++ c :: r) = a :: splitAll c r := by
  induction a with
  | nil => simp [splitAll]
  | cons x xs ih =>
    have hx := h x (List.mem_cons_self x xs)
    have ih' := ih (fun y hy => h y (List.mem_cons_of_mem x hy))
    simp [splitAll, hx, ih']

lemma any_eq_false_of_forall {l : Chars} {p : Char → Bool}
    (h : ∀ x ∈ l, p x = false) : l.any p = false := by
  induction l with
  | nil => rfl
  | cons a as ih =>
    simp only [List.any_cons, Bool.or_eq_false_iff]
    exact ⟨h a (List.mem_cons_self a as), ih (fun x hx => h x (List.mem_cons_of_mem a hx))⟩

lemma dropWhile_eq_self_of_forall {l : Chars} {p : Char → Bool}
    (h : ∀ x ∈ l, p x = false) : l.dropWhile p = l := by
  cases l with
  | nil => rfl
  | cons a as => simp [List.dropWhile_cons, h a (List.mem_cons_self a as)]

lemma pyStripFull_of_no_ws {l : Chars} (h : ∀ c ∈ l, isPyWs c = false) :
    pyStripFull l = l := by
  unfold pyStripFull
  rw [dropWhile_eq_self_of_forall h,
    dropWhile_eq_self_of_forall (fun c hc => h c (List.mem_reverse.mp hc)),
    List.reverse_reverse]

lemma stripTabCrLf_of_no_ws {l : Chars} (h : ∀ c ∈ l, isPyWs c = false) :
    stripTabCrLf l = l := by
  unfold stripTabCrLf
  apply List.filter_eq_self.mpr
  intro c hc
  have hn := h c hc
  rw [Bool.eq_false_iff] at hn
  simp only [decide_not, Bool.not_eq_eq_eq_not, Bool.not_true, decide_eq_false_iff_not]
  rintro (rfl | rfl | rfl) <;> exact hn (by simp [isPyWs])

/-! ## Well-formedness extraction and delimiter facts -/

lemma decide_eq_false_of_ne {c d : Char} (h : c ≠ d) : decide (c = d) = false := by
  simpa using h

lemma wfScheme_cons {s : Chars} (h : wfSchemeB s = true) :
    ∃ b bs, s = b :: bs ∧ isAsciiAlpha b = true ∧
      ∀ c ∈ b :: bs, isSchemeChar c = true := by
  cases s with
  | nil => simp [wfSchemeB] at h
  | cons b bs =>
    rw [wfSchemeB, Bool.and_eq_true, List.all_eq_true] at h
    exact ⟨b, bs, rfl, h.1, h.2⟩

lemma wfHost_facts {h0 : Chars} (h : wfHostB h0 = true) :
    h0 ≠ [] ∧ ∀ c ∈ h0, isHostChar c = true := by
  rw [wfHostB, Bool.and_eq_true, List.all_eq_true] at h
  refine ⟨?_, h.2⟩
  cases h0 with
  | nil => simp at h
  | cons a as => simp

lemma wfPath_facts {p : Chars} (h : wfPathB p = true) :
    (p = [] ∨ p.take 1 = ['/']) ∧ ∀ c ∈ p, isPathChar c = true := by
  cases p with
  | nil => exact ⟨Or.inl rfl, by simp⟩
  | cons c cs =>
    rw [wfPathB, Bool.and_eq_true, List.all_eq_true, decide_eq_true_eq] at h
    exact ⟨Or.inr (by simp [h.1]), h.2⟩

lemma wfPair_facts {kv : Chars × Chars} (h : wfPairB kv = true) :
    kv.1 ≠ [] ∧ kv.2 ≠ [] ∧ (∀ c ∈ kv.1, isQChar c = true) ∧
      ∀ c ∈ kv.2, isQChar c = true := by
  rw [wfPairB, Bool.and_eq_true, Bool.and_eq_true, Bool.and_eq_true,
    List.all_eq_true, List.all_eq_true] at h
  obtain ⟨⟨⟨h1, h2⟩, h3⟩, h4⟩ := h
  exact ⟨by simpa using h1, by simpa using h2, h3, h4⟩

lemma wfQuery_mem {q : List (Chars × Chars)} (h : wfQueryB q = true)
    {kv : Chars × Chars} (hkv : kv ∈ q) : wfPairB kv = true := by
  rw [wfQueryB, List.all_eq_true] at h
  exact h kv hkv

lemma serializeQuery_chars {q : List (Chars × Chars)} (hw : wfQueryB q = true) :
    ∀ c ∈ serializeQuery q, isQChar c = true ∨ c = '=' ∨ c = '&' := by
  induction q with
  | nil => simp [serializeQuery]
  | cons kv rest ih =>
    have hkv := wfPair_facts (wfQuery_mem hw (List.mem_cons_self kv rest))
    have hrest : wfQueryB rest = true := by
      rw [wfQueryB, List.all_eq_true] at hw ⊢
      exact fun x hx => hw x (List.mem_cons_of_mem kv hx)
    intro c hc
    cases rest with
    | nil =>
      rw [serializeQuery] at hc
      rcases List.mem_append.mp hc with h1 | h1
      · exact Or.inl (hkv.2.2.1 c h1)
      · rcases List.mem_cons.mp h1 with rfl | h2
        · exact Or.inr (Or.inl rfl)
        · exact Or.inl (hkv.2.2.2 c h2)
    | cons kv2 rest2 =>
      rw [serializeQuery] at hc
      rcases List.mem_append.mp hc with h1 | h1
      · rcases List.mem_append.mp h1 with h2 | h2
        · exact Or.inl (hkv.2.2.1 c h2)
        · rcases List.mem_cons.mp h2 with rfl | h3
          · exact Or.inr (Or.inl rfl)
          · exact Or.inl (hkv.2.2.2 c h3)
      · rcases List.mem_cons.mp h1 with rfl | h2
        · exact Or.inr (Or.inr rfl)
        · exact ih hrest c h2

lemma wfFrag_facts {f : Chars} (h : wfFragB (some f) = true) :
    ∀ c ∈ f, isPyWs c = false := by
  rw [wfFragB, List.all_eq_true] at h
  intro c hc
  simpa using h c hc

/-- Every character of a well-formed component URL is non-whitespace. -/
lemma mkUrl_no_ws {s h p : Chars} {q : List (Chars × Chars)} {f : Option Chars}
    (hw : wfUrl s h p q f) : ∀ c ∈ mkUrl s h p q f, isPyWs c = false := by
  obtain ⟨hs, hh, hp, hq, hf⟩ := hw
  obtain ⟨b, bs, rfl, _, hall⟩ := wfScheme_cons hs
  have hqc := serializeQuery_chars hq
  have hqp : ∀ x ∈ qPart q, isPyWs x = false := by
    unfold qPart
    cases q with
    | nil => simp
    | cons kv rest =>
      intro x hx
      rcases List.mem_cons.mp hx with rfl | hx'
      · decide
      · rcases hqc x hx' with h1 | rfl | rfl
        · exact qChar_not_ws h1
        · decide
        · decide
  have hfp : ∀ x ∈ fPart f, isPyWs x = false := by
    unfold fPart
    cases f with
    | none => simp
    | some fr =>
      intro x hx
      rcases List.mem_cons.mp hx with rfl | hx'
      · decide
      · exact wfFrag_facts hf x hx'
  intro c hc
  unfold mkUrl at hc
  simp only [List.mem_append, List.mem_cons] at hc
  rcases hc with hc | rfl | rfl | rfl | (((hc | hc) | hc) | hc)
  · exact schemeChar_not_ws (hall c (List.mem_cons.mpr hc))
  · decide
  · decide
  · decide
  · exact hostChar_not_ws ((wfHost_facts hh).2 c hc)
  · exact pathChar_not_ws ((wfPath_facts hp).2 c hc)
  · exact hqp c hc
  · exact hfp c hc

/-! ## Delimiter exclusion facts for the component character classes -/

lemma alpha_not_c0 {c : Char} (h : isAsciiAlpha c = true) : isC0OrSpace c = false := by
  simp only [isAsciiAlpha, decide_eq_true_eq] at h
  simp only [isC0OrSpace, decide_eq_false_iff_not]
  omega

lemma schemeChar_ne_colon {c : Char} (h : isSchemeChar c = true) :
    decide (c = ':') = false := by
  apply decide_eq_false_of_ne
  rintro rfl
  exact absurd h (by decide)

lemma hostChar_not_netDelim {c : Char} (h : isHostChar c = true) : netDelim c = false := by
  rw [Bool.eq_false_iff]
  intro hd
  simp only [netDelim, decide_eq_true_eq, Bool.or_eq_true] at hd
  rcases hd with rfl | rfl | rfl <;> exact absurd h (by decide)

lemma hostChar_ne_lbracket {c : Char} (h : isHostChar c = true) :
    decide (c = '[') = false := by
  apply decide_eq_false_of_ne
  rintro rfl
  exact absurd h (by decide)

lemma hostChar_ne_rbracket {c : Char} (h : isHostChar c = true) :
    decide (c = ']') = false := by
  apply decide_eq_false_of_ne
  rintro rfl
  exact absurd h (by decide)

lemma pathChar_ne_hash {c : Char} (h : isPathChar c = true) :
    decide (c = '#') = false := by
  apply decide_eq_false_of_ne
  rintro rfl
  exact absurd h (by decide)

lemma pathChar_ne_qm {c : Char} (h : isPathChar c = true) :
    decide (c = '?') = false := by
  apply decide_eq_false_of_ne
  rintro rfl
  exact absurd h (by decide)

lemma pathChar_ne_semi {c : Char} (h : isPathChar c = true) : c ≠ ';' := by
  rintro rfl
  exact absurd h (by decide)

lemma qSer_ne_hash {c : Char} (h : isQChar c = true ∨ c = '=' ∨ c = '&') :
    decide (c = '#') = false := by
  apply decide_eq_false_of_ne
  rintro rfl
  rcases h with h | h | h
  · exact absurd h (by decide)
  · exact absurd h (by decide)
  · exact absurd h (by decide)

/-- Characters of the serialized `?query` part are never `#`. -/
lemma qPart_ne_hash {q : List (Chars × Chars)} (hq : wfQueryB q = true) :
    ∀ x ∈ qPart q, decide (x = '#') = false := by
  unfold qPart
  cases q with
  | nil => simp
  | cons kv rest =>
    intro x hx
    rcases List.mem_cons.mp hx with rfl | hx'
    · decide
    · exact qSer_ne_hash (serializeQuery_chars hq x hx')

/-! ## Parsing a component-built URL -/

/-- Parsing a well-formed component URL recovers its components: the
scheme lower-cased, the host, the path, the serialized query and the
fragment. -/
lemma urlsplit_mk {s h p : Chars} {q : List (Chars × Chars)} {f : Option Chars}
    (hw : wfUrl s h p q f) :
    urlsplitD [] (mkUrl s h p q f) =
      .ok ⟨pyLower s, h, p, serializeQuery q, f.getD []⟩ := by
  obtain ⟨hs, hh, hp, hq, hf⟩ := hw
  obtain ⟨b, bs, rfl, hb, hall⟩ := wfScheme_cons hs
  have hws := mkUrl_no_ws (⟨hs, hh, hp, hq, hf⟩ : wfUrl (b :: bs) h p q f)
  have hhost := (wfHost_facts hh).2
  have hpath := (wfPath_facts hp).2
  have e1 : (mkUrl (b :: bs) h p q f).dropWhile isC0OrSpace = mkUrl (b :: bs) h p q f := by
    unfold mkUrl
    rw [List.cons_append]
    simp [List.dropWhile_cons, alpha_not_c0 hb]
  have e2 : stripTabCrLf (mkUrl (b :: bs) h p q f) = mkUrl (b :: bs) h p q f :=
    stripTabCrLf_of_no_ws hws
  have e3 : splitAtFirst (fun c => decide (c = ':')) (mkUrl (b :: bs) h p q f) =
      (b :: bs, some ('/' :: '/' ::
        (h ++ p ++ qPart q ++
        fPart f))) := by
    unfold mkUrl
    exact splitAtFirst_append (c := ':')
      (fun x hx => schemeChar_ne_colon (hall x hx)) (by decide)
  have e4 : splitUntil netDelim
      (h ++ (p ++ (qPart q ++
        fPart f))) =
      (h, p ++ (qPart q ++
        fPart f)) := by
    apply splitUntil_append (fun x hx => hostChar_not_netDelim (hhost x hx))
    rcases (wfPath_facts hp).1 with hpe | hph
    · subst hpe
      cases q with
      | cons kv rest =>
        right
        exact ⟨'?', serializeQuery (kv :: rest) ++ fPart f, by simp [qPart], by decide⟩
      | nil =>
        cases f with
        | some fr => right; exact ⟨'#', fr, by simp [qPart, fPart], by decide⟩
        | none => left; rfl
    · obtain ⟨p', rfl⟩ : ∃ p', p = '/' :: p' := by
        cases p with
        | nil => simp at hph
        | cons c cs =>
          simp only [List.take, List.cons.injEq] at hph
          exact ⟨cs, by rw [hph.1]⟩
      right
      exact ⟨'/', p' ++ (qPart q ++ fPart f), by simp, by decide⟩
  have e5l : h.any (fun c => decide (c = '[')) = false :=
    any_eq_false_of_forall (fun x hx => hostChar_ne_lbracket (hhost x hx))
  have e5r : h.any (fun c => decide (c = ']')) = false :=
    any_eq_false_of_forall (fun x hx => hostChar_ne_rbracket (hhost x hx))
  have hnp : ∀ x ∈ p ++ qPart q, decide (x = '#') = false := by
    intro x hx
    rcases List.mem_append.mp hx with hx | hx
    · exact pathChar_ne_hash (hpath x hx)
    · exact qPart_ne_hash hq x hx
  have e6 : (match splitAtFirst (fun c => decide (c = '#'))
      (p ++ (qPart q ++
        fPart f)) with
      | (a, some b) => (a, b)
      | (a, none) => (a, ([] : Chars))) =
      (p ++ qPart q, f.getD []) := by
    cases f with
    | none =>
      simp only [fPart, List.append_nil]
      rw [splitAtFirst_of_forall hnp]
      rfl
    | some fr =>
      simp only [fPart]
      rw [← List.append_assoc]
      simp only [splitAtFirst_append (c := '#') hnp (by decide)]
      rfl
  have e7 : (match splitAtFirst (fun c => decide (c = '?'))
      (p ++ qPart q) with
      | (a, some b) => (a, b)
      | (a, none) => (a, ([] : Chars))) = (p, serializeQuery q) := by
    have hq' : ∀ x ∈ p, decide (x = '?') = false :=
      fun x hx => pathChar_ne_qm (hpath x hx)
    cases q with
    | nil =>
      simp only [qPart, List.append_nil]
      rw [splitAtFirst_of_forall hq']
      rfl
    | cons kv rest =>
      simp only [qPart]
      simp only [splitAtFirst_append (c := '?') hq' (by decide)]
  have hall' : (b :: bs).all isSchemeChar = true := List.all_eq_true.mpr hall
  simp only [List.append_assoc] at e4
  unfold urlsplitD
  simp only [e1, e2, e3, hb, hall', and_self, if_true, List.append_assoc, e4, e5l, e5r]
  rw [if_neg (by simp)]
  rw [e6, e7]

/-- Parsing a well-formed component URL with `urlparse`: the path
carries no `;` so the params component is empty. -/
lemma urlparse_mk {s h p : Chars} {q : List (Chars × Chars)} {f : Option Chars}
    (hw : wfUrl s h p q f) :
    pyUrlparse (mkUrl s h p q f) =
      .ok ⟨pyLower s, h, p, [], serializeQuery q, f.getD []⟩ := by
  have hsemi : ';' ∉ p := fun hm =>
    pathChar_ne_semi ((wfPath_facts hw.2.2.1).2 _ hm) rfl
  unfold pyUrlparse urlparseD
  rw [urlsplit_mk hw]
  dsimp only [Except.map]
  rw [splitparams_no_semi hsemi]

/-! ## Lower-casing lemmas -/

lemma charLower_toNat_of_upper {c : Char} (h1 : 65 ≤ c.toNat) (h2 : c.toNat ≤ 90) :
    (charLower c).toNat = c.toNat + 32 := by
  unfold charLower
  rw [if_pos ⟨h1, h2⟩]
  have hv : (c.toNat + 32).isValidChar := Or.inl (by omega)
  rw [Char.ofNat, dif_pos hv]
  simp [Char.ofNatAux, Char.toNat, UInt32.toNat, BitVec.toNat_ofNat]

lemma charLower_eq_self {c : Char} (h : ¬ (65 ≤ c.toNat ∧ c.toNat ≤ 90)) :
    charLower c = c := if_neg h

lemma charLower_idem (c : Char) : charLower (charLower c) = charLower c := by
  by_cases h : 65 ≤ c.toNat ∧ c.toNat ≤ 90
  · have ht := charLower_toNat_of_upper h.1 h.2
    exact charLower_eq_self (by omega)
  · rw [charLower_eq_self h, charLower_eq_self h]

lemma pyLower_idem (l : Chars) : pyLower (pyLower l) = pyLower l := by
  simp only [pyLower, List.map_map]
  apply List.map_congr_left
  intro c _
  exact charLower_idem c

lemma isAsciiAlpha_charLower {c : Char} (h : isAsciiAlpha c = true) :
    isAsciiAlpha (charLower c) = true := by
  simp only [isAsciiAlpha, decide_eq_true_eq, Bool.or_eq_true] at h ⊢
  rcases h with h | h
  · rw [charLower_eq_self (by omega)]
    omega
  · have := charLower_toNat_of_upper h.1 h.2
    omega

lemma isSchemeChar_charLower {c : Char} (h : isSchemeChar c = true) :
    isSchemeChar (charLower c) = true := by
  rcases schemeChar_ranges h with h1 | h1 | h1 | h1 | h1 | h1 <;>
    [skip; skip; skip; skip; skip; skip] <;>
  first
  | (rw [charLower_eq_self (by omega)]; exact h)
  | (have ht := charLower_toNat_of_upper h1.1 h1.2
     simp only [isSchemeChar, isAsciiAlphaNum, isAsciiAlpha, isAsciiDigit,
       decide_eq_true_eq, Bool.or_eq_true]
     omega)

lemma isHostChar_charLower {c : Char} (h : isHostChar c = true) :
    isHostChar (charLower c) = true := by
  rcases hostChar_ranges h with h1 | h1 | h1 | h1 | h1 <;>
  first
  | (rw [charLower_eq_self (by omega)]; exact h)
  | (have ht := charLower_toNat_of_upper h1.1 h1.2
     simp only [isHostChar, isAsciiAlphaNum, isAsciiAlpha, isAsciiDigit,
       decide_eq_true_eq, Bool.or_eq_true]
     omega)

lemma isPathChar_charLower {c : Char} (h : isPathChar c = true) :
    isPathChar (charLower c) = true := by
  rcases pathChar_ranges h with h1 | h1 | h1 | h1 | h1 | h1 | h1 <;>
  first
  | (rw [charLower_eq_self (by omega)]; exact h)
  | (have ht := charLower_toNat_of_upper h1.1 h1.2
     simp only [isPathChar, isAsciiAlphaNum, isAsciiAlpha, isAsciiDigit,
       decide_eq_true_eq, Bool.or_eq_true]
     omega)

lemma isQChar_charLower {c : Char} (h : isQChar c = true) :
    isQChar (charLower c) = true := by
  rcases qChar_ranges h with h1 | h1 | h1 | h1 | h1 | h1 <;>
  first
  | (rw [charLower_eq_self (by omega)]; exact h)
  | (have ht := charLower_toNat_of_upper h1.1 h1.2
     simp only [isQChar, isAsciiAlphaNum, isAsciiAlpha, isAsciiDigit,
       decide_eq_true_eq, Bool.or_eq_true]
     omega)

lemma not_ws_charLower {c : Char} (h : isPyWs c = false) :
    isPyWs (charLower c) = false := by
  by_cases hu : 65 ≤ c.toNat ∧ c.toNat ≤ 90
  · have ht := charLower_toNat_of_upper hu.1 hu.2
    apply not_ws_of_toNat
    omega
  · rw [charLower_eq_self hu]
    exact h

lemma serializeQuery_lowerQ (q : List (Chars × Chars)) :
    serializeQuery (lowerQ q) = pyLower (serializeQuery q) := by
  induction q with
  | nil => rfl
  | cons kv rest ih =>
    cases rest with
    | nil =>
      simp only [lowerQ, List.map_cons, List.map_nil, serializeQuery, pyLower,
        List.map_append]
      rfl
    | cons kv2 rest2 =>
      simp only [lowerQ, List.map_cons, serializeQuery, pyLower, List.map_append,
        List.map_cons] at ih ⊢
      rw [ih]
      rfl

lemma not_isEmpty_map {l : Chars} (h : l ≠ []) :
    (List.map charLower l).isEmpty = false := by
  cases l with
  | nil => exact absurd rfl h
  | cons a as => rfl

lemma qPart_lowerQ (q : List (Chars × Chars)) :
    qPart (lowerQ q) = pyLower (qPart q) := by
  cases q with
  | nil => rfl
  | cons kv rest =>
    show '?' :: serializeQuery (lowerQ (kv :: rest)) =
      pyLower ('?' :: serializeQuery (kv :: rest))
    rw [serializeQuery_lowerQ]
    rfl

lemma fPart_lowerMap (f : Option Chars) :
    fPart (f.map pyLower) = pyLower (fPart f) := by
  cases f with
  | none => rfl
  | some fr => rfl

/-- Lower-casing a component URL lower-cases its components. -/
lemma mkUrl_lower (s h p : Chars) (q : List (Chars × Chars)) (f : Option Chars) :
    pyLower (mkUrl s h p q f) =
      mkUrl (pyLower s) (pyLower h) (pyLower p) (lowerQ q) (f.map pyLower) := by
  unfold mkUrl
  simp only [pyLower, List.map_append, List.map_cons]
  rw [← pyLower, ← pyLower, ← pyLower, ← pyLower, ← pyLower, qPart_lowerQ, fPart_lowerMap]
  rfl

/-- Well-formedness is preserved by lower-casing the components. -/
lemma wfUrl_lower {s h p : Chars} {q : List (Chars × Chars)} {f : Option Chars}
    (hw : wfUrl s h p q f) :
    wfUrl (pyLower s) (pyLower h) (pyLower p) (lowerQ q) (f.map pyLower) := by
  obtain ⟨hs, hh, hp, hq, hf⟩ := hw
  obtain ⟨b, bs, rfl, hb, hall⟩ := wfScheme_cons hs
  refine ⟨?_, ?_, ?_, ?_, ?_⟩
  · rw [pyLower, List.map_cons, wfSchemeB, Bool.and_eq_true, List.all_eq_true]
    refine ⟨isAsciiAlpha_charLower hb, ?_⟩
    intro c hc
    rw [← List.map_cons] at hc
    obtain ⟨x, hx, rfl⟩ := List.mem_map.mp hc
    exact isSchemeChar_charLower (hall x hx)
  · obtain ⟨hne, hchars⟩ := wfHost_facts hh
    rw [wfHostB, Bool.and_eq_true, List.all_eq_true]
    constructor
    · rw [pyLower, not_isEmpty_map hne]
      rfl
    · intro c hc
      obtain ⟨x, hx, rfl⟩ := List.mem_map.mp hc
      exact isHostChar_charLower (hchars x hx)
  · obtain ⟨hshape, hchars⟩ := wfPath_facts hp
    cases p with
    | nil => exact hp
    | cons c cs =>
      have hc : c = '/' := by
        rcases hshape with hne | htake
        · simp at hne
        · simpa using congrArg (fun l => l.headD ' ') htake
      subst hc
      rw [pyLower, List.map_cons, wfPathB, Bool.and_eq_true, List.all_eq_true]
      refine ⟨by decide, ?_⟩
      intro x hx
      rw [← List.map_cons] at hx
      obtain ⟨y, hy, rfl⟩ := List.mem_map.mp hx
      exact isPathChar_charLower (hchars y hy)
  · rw [wfQueryB, List.all_eq_true]
    intro kv hkv
    obtain ⟨x, hx, rfl⟩ := List.mem_map.mp hkv
    obtain ⟨h1, h2, h3, h4⟩ := wfPair_facts (wfQuery_mem hq hx)
    rw [wfPairB, Bool.and_eq_true, Bool.and_eq_true, Bool.and_eq_true,
      List.all_eq_true, List.all_eq_true]
    refine ⟨⟨⟨?_, ?_⟩, ?_⟩, ?_⟩
    · show (!List.isEmpty (pyLower x.1)) = true
      rw [pyLower, not_isEmpty_map h1]
      rfl
    · show (!List.isEmpty (pyLower x.2)) = true
      rw [pyLower, not_isEmpty_map h2]
      rfl
    · intro c hc
      obtain ⟨y, hy, rfl⟩ := List.mem_map.mp hc
      exact isQChar_charLower (h3 y hy)
    · intro c hc
      obtain ⟨y, hy, rfl⟩ := List.mem_map.mp hc
      exact isQChar_charLower (h4 y hy)
  · cases f with
    | none => rfl
    | some fr =>
      show wfFragB (some (pyLower fr)) = true
      rw [wfFragB, List.all_eq_true]
      intro c hc
      obtain ⟨y, hy, rfl⟩ := List.mem_map.mp hc
      have := wfFrag_facts hf y hy
      simp [not_ws_charLower this]

/-! ## Trailing-slash stripping lemmas -/

lemma dropWhile_dropWhile (p : Char → Bool) (l : Chars) :
    (l.dropWhile p).dropWhile p = l.dropWhile p := by
  induction l with
  | nil => rfl
  | cons a as ih =>
    by_cases h : p a
    · simp [List.dropWhile_cons, h, ih]
    · simp [List.dropWhile_cons, h]

lemma rstripSlash_idem (l : Chars) : rstripSlash (rstripSlash l) = rstripSlash l := by
  unfold rstripSlash
  rw [List.reverse_reverse, dropWhile_dropWhile]

lemma rstripSlash_append_slash (l : Chars) :
    rstripSlash (l ++ ['/']) = rstripSlash l := by
  unfold rstripSlash
  rw [List.reverse_append]
  simp [List.dropWhile_cons]

lemma rstripSlash_condRstrip (p : Chars) :
    rstripSlash (condRstrip p) = rstripSlash p := by
  unfold condRstrip
  split
  · exact rstripSlash_idem p
  · rfl

lemma charLower_eq_slash_iff (c : Char) : charLower c = '/' ↔ c = '/' := by
  constructor
  · intro h
    by_cases hu : 65 ≤ c.toNat ∧ c.toNat ≤ 90
    · have ht := charLower_toNat_of_upper hu.1 hu.2
      have h2 : (charLower c).toNat = ('/' : Char).toNat := by rw [h]
      have h47 : ('/' : Char).toNat = 47 := rfl
      omega
    · rwa [charLower_eq_self hu] at h
  · rintro rfl
    decide

lemma rstripSlash_pyLower (l : Chars) :
    rstripSlash (pyLower l) = pyLower (rstripSlash l) := by
  have hpred : ((fun c => decide (c = '/')) ∘ charLower) = (fun c => decide (c = '/')) :=
    funext fun c => decide_eq_decide.mpr (charLower_eq_slash_iff c)
  show ((List.map charLower l).reverse.dropWhile (fun c => decide (c = '/'))).reverse =
    List.map charLower ((l.reverse.dropWhile (fun c => decide (c = '/'))).reverse)
  rw [← List.map_reverse, List.dropWhile_map, hpred, List.map_reverse]

lemma rstripSlash_prefix (l : Chars) : rstripSlash l <+: l := by
  unfold rstripSlash
  obtain ⟨t, ht⟩ := List.dropWhile_suffix (l := l.reverse) (p := fun c => decide (c = '/'))
  exact ⟨t.reverse, by rw [← List.reverse_append, ht, List.reverse_reverse]⟩

lemma wfPathB_rstripSlash {p : Chars} (h : wfPathB p = true) :
    wfPathB (rstripSlash p) = true := by
  obtain ⟨hshape, hchars⟩ := wfPath_facts h
  obtain ⟨t, ht⟩ := rstripSlash_prefix p
  cases hr : rstripSlash p with
  | nil => rfl
  | cons c cs =>
    rw [wfPathB, Bool.and_eq_true, List.all_eq_true]
    have hp_eq : p = c :: (cs ++ t) := by
      rw [← ht, hr]
      simp
    constructor
    · rcases hshape with h0 | h0
      · rw [h0] at hp_eq
        simp at hp_eq
      · rw [hp_eq] at h0
        simp only [List.take, List.cons.injEq] at h0
        simp [h0.1]
    · intro x hx
      apply hchars
      rw [hp_eq]
      rcases List.mem_cons.mp hx with rfl | hx'
      · exact List.mem_cons_self _ _
      · exact List.mem_cons_of_mem _ (List.mem_append_left _ hx')

lemma wfPathB_condRstrip {p : Chars} (h : wfPathB p = true) :
    wfPathB (condRstrip p) = true := by
  unfold condRstrip
  split
  · exact wfPathB_rstripSlash h
  · exact h

lemma serializeQuery_ne_nil {q : List (Chars × Chars)} (hw : wfQueryB q = true)
    (hq : q ≠ []) : serializeQuery q ≠ [] := by
  cases q with
  | nil => exact absurd rfl hq
  | cons kv rest =>
    have h1 := (wfPair_facts (wfQuery_mem hw (List.mem_cons_self kv rest))).1
    cases rest with
    | nil => simp [serializeQuery]
    | cons kv2 rest2 => simp [serializeQuery]

/-! ## Computing `urlunparse` on clean components -/

lemma urlunparse_components {sc nl pa qu : Chars}
    (hsc : sc ≠ []) (hnl : nl ≠ []) (hpa : pa = [] ∨ pa.take 1 = ['/']) :
    pyUrlunparse ⟨sc, nl, pa, [], qu, []⟩ =
      sc ++ ':' :: '/' :: '/' :: (nl ++ pa ++ (if qu = [] then [] else '?' :: qu)) := by
  have hpa' : (pa = []) ∨ ∃ cs, pa = '/' :: cs := by
    rcases hpa with h | h
    · exact Or.inl h
    · cases pa with
      | nil => exact Or.inl rfl
      | cons c cs =>
        simp only [List.take, List.cons.injEq] at h
        exact Or.inr ⟨cs, by rw [h.1]⟩
  unfold pyUrlunparse urlunsplitCore
  rcases hpa' with rfl | ⟨cs, rfl⟩ <;> by_cases hqu : qu = [] <;>
    simp [hsc, hnl, hqu, List.append_assoc]

/-- `normalize_url` on a well-formed component URL: lower-case the
scheme, conditionally strip trailing slashes from the path, drop the
fragment. -/
lemma normalize_url_mk {s h p : Chars} {q : List (Chars × Chars)} {f : Option Chars}
    (hw : wfUrl s h p q f) :
    normalize_url (mkUrl s h p q f) = mkUrl (pyLower s) h (condRstrip p) q none := by
  obtain ⟨hs, hh, hp, hq, hf⟩ := hw
  obtain ⟨b, bs, rfl, hb, hall⟩ := wfScheme_cons hs
  unfold normalize_url
  rw [urlparse_mk ⟨hs, hh, hp, hq, hf⟩]
  dsimp only
  rw [show (if p ≠ ['/'] then rstripSlash p else p) = condRstrip p from rfl]
  rw [urlunparse_components (by simp [pyLower]) (wfHost_facts hh).1
    (wfPath_facts (wfPathB_condRstrip hp)).1]
  cases q with
  | nil => simp [mkUrl, qPart, fPart, serializeQuery]
  | cons kv rest =>
    rw [if_neg (serializeQuery_ne_nil hq (by simp))]
    simp [mkUrl, qPart, fPart]

/-- `normalize_url_for_deduplication` on a well-formed component URL. -/
lemma dedup_mk {s h p : Chars} {q : List (Chars × Chars)} {f : Option Chars}
    (hw : wfUrl s h p q f) :
    normalize_url_for_deduplication (mkUrl s h p q f) =
      pyUrlunparse ⟨pyLower s, pyLower h, rstripSlash (pyLower p), [],
        urlencodeSeq ((parseQs (serializeQuery (lowerQ q))).filter keepParam), []⟩ := by
  unfold normalize_url_for_deduplication
  rw [mkUrl_lower, pyStripFull_of_no_ws (mkUrl_no_ws (wfUrl_lower hw))]
  dsimp only
  rw [urlparse_mk (wfUrl_lower hw)]
  dsimp only
  rw [pyLower_idem]

/-! ## Query-string round trip -/

lemma qChar_ne_eqsign {c : Char} (h : isQChar c = true) : c ≠ '=' := by
  rintro rfl
  exact absurd h (by decide)

lemma qChar_ne_amp {c : Char} (h : isQChar c = true) : c ≠ '&' := by
  rintro rfl
  exact absurd h (by decide)

lemma qChar_ne_pct {c : Char} (h : isQChar c = true) : c ≠ '%' := by
  rintro rfl
  exact absurd h (by decide)

lemma qChar_ne_plus {c : Char} (h : isQChar c = true) : c ≠ '+' := by
  rintro rfl
  exact absurd h (by decide)

lemma pyUnquote_cons_ne_pct {c : Char} (rest : Chars) (h : c ≠ '%') :
    pyUnquote (c :: rest) = c :: pyUnquote rest := by
  cases rest with
  | nil => simp [pyUnquote, h]
  | cons a as =>
    cases as with
    | nil => simp [pyUnquote, h]
    | cons b bs => simp [pyUnquote, h]

lemma pyUnquote_no_pct {l : Chars} (h : ∀ c ∈ l, c ≠ '%') : pyUnquote l = l := by
  induction l with
  | nil => rfl
  | cons c rest ih =>
    rw [pyUnquote_cons_ne_pct rest (h c (List.mem_cons_self c rest)),
      ih fun x hx => h x (List.mem_cons_of_mem c hx)]

lemma plusToSpace_no_plus {l : Chars} (h : ∀ c ∈ l, c ≠ '+') : plusToSpace l = l := by
  induction l with
  | nil => rfl
  | cons c cs ih =>
    simp only [plusToSpace, List.map_cons] at ih ⊢
    rw [if_neg (h c (List.mem_cons_self c cs)),
      ih fun x hx => h x (List.mem_cons_of_mem c hx)]

lemma chunk_no_amp {k v : Chars} (hq1 : ∀ c ∈ k, isQChar c = true)
    (hq2 : ∀ c ∈ v, isQChar c = true) : ∀ x ∈ k ++ '=' :: v, x ≠ '&' := by
  intro x hx
  rcases List.mem_append.mp hx with hxk | hxv
  · exact qChar_ne_amp (hq1 x hxk)
  · rcases List.mem_cons.mp hxv with rfl | hxv2
    · decide
    · exact qChar_ne_amp (hq2 x hxv2)

lemma parseQsl_single {k v : Chars} (hw : wfPairB (k, v) = true) :
    parseQsl (k ++ '=' :: v) = [(k, v)] := by
  obtain ⟨hk, hv, hqk, hqv⟩ := wfPair_facts hw
  unfold parseQsl
  rw [splitAll_no_sep (chunk_no_amp hqk hqv)]
  simp only [List.foldr_cons, List.foldr_nil]
  rw [if_neg (by cases k <;> simp)]
  rw [splitAtFirst_append (c := '=')
    (fun x hx => decide_eq_false_of_ne (qChar_ne_eqsign (hqk x hx))) rfl]
  dsimp only
  rw [if_neg hv, plusToSpace_no_plus (fun x hx => qChar_ne_plus (hqk x hx)),
    plusToSpace_no_plus (fun x hx => qChar_ne_plus (hqv x hx)),
    pyUnquote_no_pct (fun x hx => qChar_ne_pct (hqk x hx)),
    pyUnquote_no_pct (fun x hx => qChar_ne_pct (hqv x hx))]

lemma parseQsl_cons {k v s : Chars} (hw : wfPairB (k, v) = true) :
    parseQsl ((k ++ '=' :: v) ++ '&' :: s) = (k, v) :: parseQsl s := by
  obtain ⟨hk, hv, hqk, hqv⟩ := wfPair_facts hw
  unfold parseQsl
  rw [splitAll_append (chunk_no_amp hqk hqv)]
  simp only [List.foldr_cons]
  rw [if_neg (by cases k <;> simp)]
  rw [splitAtFirst_append (c := '=')
    (fun x hx => decide_eq_false_of_ne (qChar_ne_eqsign (hqk x hx))) rfl]
  dsimp only
  rw [if_neg hv, plusToSpace_no_plus (fun x hx => qChar_ne_plus (hqk x hx)),
    plusToSpace_no_plus (fun x hx => qChar_ne_plus (hqv x hx)),
    pyUnquote_no_pct (fun x hx => qChar_ne_pct (hqk x hx)),
    pyUnquote_no_pct (fun x hx => qChar_ne_pct (hqv x hx))]

/-- On well-formed query pairs (whose characters carry no reserved
delimiters), `parse_qsl` inverts the `k1=v1&k2=v2` serialization. -/
lemma parseQsl_serialize {q : List (Chars × Chars)} (hw : wfQueryB q = true) :
    parseQsl (serializeQuery q) = q := by
  induction q with
  | nil => rfl
  | cons kv rest ih =>
    obtain ⟨k, v⟩ := kv
    have hkv := wfQuery_mem hw (List.mem_cons_self _ rest)
    cases rest with
    | nil => exact parseQsl_single hkv
    | cons kv2 rest2 =>
      have hrest : wfQueryB (kv2 :: rest2) = true := by
        rw [wfQueryB, List.all_eq_true] at hw ⊢
        exact fun x hx => hw x (List.mem_cons_of_mem _ hx)
      have hs : serializeQuery ((k, v) :: kv2 :: rest2) =
          (k ++ '=' :: v) ++ '&' :: serializeQuery (kv2 :: rest2) := by
        rw [serializeQuery]
      rw [hs, parseQsl_cons hkv, ih hrest]

lemma wfPairB_lower {k v : Chars} (hw : wfPairB (k, v) = true) :
    wfPairB (pyLower k, pyLower v) = true := by
  obtain ⟨hk, hv, hqk, hqv⟩ := wfPair_facts hw
  rw [wfPairB, Bool.and_eq_true, Bool.and_eq_true, Bool.and_eq_true,
    List.all_eq_true, List.all_eq_true]
  refine ⟨⟨⟨?_, ?_⟩, ?_⟩, ?_⟩
  · show (!(pyLower k).isEmpty) = true
    rw [pyLower, not_isEmpty_map hk]
    rfl
  · show (!(pyLower v).isEmpty) = true
    rw [pyLower, not_isEmpty_map hv]
    rfl
  · intro c hc
    rw [pyLower] at hc
    obtain ⟨x, hx, rfl⟩ := List.mem_map.mp hc
    exact isQChar_charLower (hqk x hx)
  · intro c hc
    rw [pyLower] at hc
    obtain ⟨x, hx, rfl⟩ := List.mem_map.mp hc
    exact isQChar_charLower (hqv x hx)

lemma wfQueryB_lowerQ {q : List (Chars × Chars)} (hw : wfQueryB q = true) :
    wfQueryB (lowerQ q) = true := by
  rw [wfQueryB, List.all_eq_true]
  intro kv hkv
  rw [lowerQ, List.mem_map] at hkv
  obtain ⟨⟨k, v⟩, hmem, rfl⟩ := hkv
  exact wfPairB_lower (wfQuery_mem hw hmem)

lemma wfQueryB_append_mid {q1 q2 : List (Chars × Chars)} {kv : Chars × Chars}
    (hw : wfQueryB (q1 ++ kv :: q2) = true) :
    wfQueryB (q1 ++ q2) = true ∧ wfPairB kv = true := by
  rw [wfQueryB, List.all_eq_true] at hw
  constructor
  · rw [wfQueryB, List.all_eq_true]
    intro x hx
    rcases List.mem_append.mp hx with h | h
    · exact hw x (List.mem_append_left _ h)
    · exact hw x (List.mem_append_right _ (List.mem_cons_of_mem _ h))
  · exact hw kv (List.mem_append_right _ (List.mem_cons_self _ _))

/-! ## Tracking-parameter filtering commutes with `parse_qs` grouping -/

lemma keepParam_eq_keepPair {e : Chars × List Chars} {kv : Chars × Chars}
    (h : e.1 = kv.1) : keepParam e = keepPair kv := by
  rw [keepParam, keepPair, h]

lemma any_filter_keepParam (kv : Chars × Chars) (h : keepPair kv = true) :
    ∀ acc : List (Chars × List Chars),
      ((acc.filter keepParam).any fun e => e.1 = kv.1) = (acc.any fun e => e.1 = kv.1)
  | [] => rfl
  | e :: es => by
    by_cases he : e.1 = kv.1
    · have hke : keepParam e = true := (keepParam_eq_keepPair he).trans h
      simp [List.filter_cons, hke, he, any_filter_keepParam kv h es]
    · by_cases hke : keepParam e = true
      · simp [List.filter_cons, hke, he, any_filter_keepParam kv h es]
      · simp [List.filter_cons, hke, he, any_filter_keepParam kv h es]

lemma filter_map_bump (key w : Chars) :
    ∀ acc : List (Chars × List Chars),
      ((acc.map fun e => if e.1 = key then (e.1, e.2 ++ [w]) else e).filter keepParam)
        = ((acc.filter keepParam).map fun e => if e.1 = key then (e.1, e.2 ++ [w]) else e)
  | [] => rfl
  | e :: es => by
    have hkey : keepParam (if e.1 = key then (e.1, e.2 ++ [w]) else e) = keepParam e := by
      by_cases he : e.1 = key <;> simp [he, keepParam]
    by_cases hke : keepParam e = true <;>
      simp [List.filter_cons, hkey, hke, filter_map_bump key w es]

lemma filter_map_bump_dropped {kv : Chars × Chars} (h : keepPair kv = false) :
    ∀ acc : List (Chars × List Chars),
      ((acc.map fun e => if e.1 = kv.1 then (e.1, e.2 ++ [kv.2]) else e).filter keepParam)
        = acc.filter keepParam
  | [] => rfl
  | e :: es => by
    by_cases he : e.1 = kv.1
    · have hke : keepParam e = false := (keepParam_eq_keepPair he).trans h
      have hke2 : keepParam (e.1, e.2 ++ [kv.2]) = false := hke
      have hke3 : keepParam (kv.1, e.2 ++ [kv.2]) = false := h
      simp [List.filter_cons, he, hke, hke2, hke3, filter_map_bump_dropped h es]
    · by_cases hke : keepParam e = true <;>
        simp [List.filter_cons, he, hke, filter_map_bump_dropped h es]

lemma groupInsert_filter_kept {kv : Chars × Chars} (h : keepPair kv = true)
    (acc : List (Chars × List Chars)) :
    (groupInsert acc kv).filter keepParam = groupInsert (acc.filter keepParam) kv := by
  unfold groupInsert
  rw [any_filter_keepParam kv h acc]
  by_cases hany : (acc.any fun e => e.1 = kv.1) = true
  · rw [if_pos hany, if_pos hany]
    exact filter_map_bump kv.1 kv.2 acc
  · rw [if_neg hany, if_neg hany, List.filter_append]
    have hk : keepParam (kv.1, [kv.2]) = true := h
    simp [List.filter_cons, hk]

lemma groupInsert_filter_dropped {kv : Chars × Chars} (h : keepPair kv = false)
    (acc : List (Chars × List Chars)) :
    (groupInsert acc kv).filter keepParam = acc.filter keepParam := by
  unfold groupInsert
  by_cases hany : (acc.any fun e => e.1 = kv.1) = true
  · rw [if_pos hany]
    exact filter_map_bump_dropped h acc
  · rw [if_neg hany, List.filter_append]
    have hk : keepParam (kv.1, [kv.2]) = false := h
    simp [List.filter_cons, hk]

/-- Dropping denylisted keys commutes with `parse_qs`'s grouping. -/
lemma groupFold_filter :
    ∀ (l : List (Chars × Chars)) (acc : List (Chars × List Chars)),
      (groupFold acc l).filter keepParam =
        groupFold (acc.filter keepParam) (l.filter keepPair)
  | [], acc => rfl
  | kv :: rest, acc => by
    show (groupFold (groupInsert acc kv) rest).filter keepParam = _
    by_cases h : keepPair kv = true
    · rw [groupFold_filter rest (groupInsert acc kv), groupInsert_filter_kept h acc]
      have hl : (kv :: rest).filter keepPair = kv :: rest.filter keepPair := by
        simp [List.filter_cons, h]
      rw [hl]
      rfl
    · have hf : keepPair kv = false := by simpa using h
      rw [groupFold_filter rest (groupInsert acc kv), groupInsert_filter_dropped hf acc]
      have hl : (kv :: rest).filter keepPair = rest.filter keepPair := by
        simp [List.filter_cons, hf]
      rw [hl]

lemma parseQs_filter (s : Chars) :
    (parseQs s).filter keepParam = groupFold [] ((parseQsl s).filter keepPair) := by
  rw [parseQs, groupFold_filter]
  rfl

lemma dedup_query_filter {q : List (Chars × Chars)} (hw : wfQueryB q = true) :
    (parseQs (serializeQuery (lowerQ q))).filter keepParam =
      groupFold [] ((lowerQ q).filter keepPair) := by
  rw [parseQs_filter, parseQsl_serialize (wfQueryB_lowerQ hw)]

lemma lowerQ_filter_mid {q1 q2 : List (Chars × Chars)} {k v : Chars}
    (hk : pyLower k ∈ trackingParams) :
    (lowerQ (q1 ++ (k, v) :: q2)).filter keepPair =
      (lowerQ (q1 ++ q2)).filter keepPair := by
  simp only [lowerQ, List.map_append, List.map_cons, List.filter_append, List.filter_cons]
  have hkp : keepPair (pyLower k, pyLower v) = false := by
    simp [keepPair, pyLower_idem, hk]
  rw [hkp]
  simp

/-! ## Well-formedness transport for the claim theorems -/

lemma wfPathB_append_slash {p : Chars} (h : wfPathB p = true) :
    wfPathB (p ++ ['/']) = true := by
  cases p with
  | nil => decide
  | cons c cs =>
    rw [wfPathB, Bool.and_eq_true, List.all_eq_true] at h
    rw [List.cons_append, wfPathB, Bool.and_eq_true, List.all_eq_true]
    refine ⟨h.1, ?_⟩
    intro x hx
    rcases List.mem_cons.mp hx with rfl | hx1
    · exact h.2 x (List.mem_cons_self _ _)
    · rcases List.mem_append.mp hx1 with hx2 | hx2
      · exact h.2 x (List.mem_cons_of_mem _ hx2)
      · rw [List.mem_singleton] at hx2
        subst hx2
        decide

lemma wfUrl_norm {s h p : Chars} {q : List (Chars × Chars)} {f : Option Chars}
    (hw : wfUrl s h p q f) : wfUrl (pyLower s) h (condRstrip p) q none :=
  ⟨(wfUrl_lower hw).1, hw.2.1, wfPathB_condRstrip hw.2.2.1, hw.2.2.2.1, rfl⟩

/-- C1.  The claim says the engine skips a popped URL whenever its
enhanced-normalized form is already visited, so that no URL is fetched
more than once up to enhanced normalization.  `crawl_website` checks the
raw popped string instead: on a page linking to `/b` and
`/b?utm_source=x` it fetches both, although their enhanced-normalized
forms coincide. -/
theorem C1_counterexample :
    (crawl_website webPair "http://ex.com".toList 10 10).scrapeLog =
      ["http://ex.com".toList, "http://ex.com/b".toList,
       "http://ex.com/b?utm_source=x".toList] ∧
    normalize_url_for_deduplication "http://ex.com/b".toList =
      normalize_url_for_deduplication "http://ex.com/b?utm_source=x".toList ∧
    "http://ex.com/b".toList ≠ "http://ex.com/b?utm_source=x".toList := by
  refine ⟨by decide, by decide, by decide⟩

/-- C1 (amended).  `crawl_website` deduplicates popped URLs by their
exact string, so no URL is fetched twice as a string; the unlimited
streaming loop deduplicates by the enhanced-normalized form, so there no
URL is fetched twice up to enhanced normalization; in both loops a URL
is marked visited before it is fetched, and a popped already-visited URL
is skipped without touching the records (the page budget). -/
theorem C1_theorem :
    (∀ web base mp fuel, ((crawl_website web base mp fuel).scrapeLog).Nodup) ∧
    (∀ web base fuel,
      (((unlimited_crawl web base fuel).scrapeLog).map
        normalize_url_for_deduplication).Nodup) ∧
    (∀ web d mp fuel s u rest, s.frontier = u :: rest → u ∈ s.visited →
      s.records.length < mp →
      crawlLoop web d mp (fuel + 1) s = crawlLoop web d mp fuel { s with frontier := rest }) := by
  refine ⟨?_, ?_, ?_⟩
  · intro web base mp fuel
    exact crawlLoop_nodup web (domainOf base) mp fuel _ (by simp) (by simp)
  · intro web base fuel
    exact unlimitedLoop_nodup web (domainOf base) fuel _ (by simp) (by simp)
  · intro web d mp fuel s u rest hf hv hb
    exact crawlLoop_skip_step web d mp fuel s u rest hf hv hb

theorem C1_witness :
    ((⟨["http://ex.com".toList], ["http://ex.com".toList, "http://ex.com/b".toList],
        [], [], 0⟩ : CrawlState).frontier =
      "http://ex.com".toList :: ["http://ex.com/b".toList]) ∧
    crawlLoop webPair "ex.com".toList 5 3
        ⟨["http://ex.com".toList], ["http://ex.com".toList, "http://ex.com/b".toList],
         [], [], 0⟩ =
      crawlLoop webPair "ex.com".toList 5 2
        ⟨["http://ex.com".toList], ["http://ex.com/b".toList], [], [], 0⟩ :=
  ⟨rfl, C1_theorem.2.2 webPair "ex.com".toList 5 2 _ _ _ rfl (by decide) (by decide)⟩

/-- C2.  A budget-1 crawl of a seed page with links does emit exactly
one PageRecord, but it still performs link discovery: both links of the
seed page are extracted and enqueued (they remain in the frontier when
the loop exits), refuting "no links are extracted or enqueued". -/
theorem C2_counterexample :
    (crawl_website webPair "http://ex.com".toList 1 5).records.length = 1 ∧
    (crawl_website webPair "http://ex.com".toList 1 5).frontier =
      ["http://ex.com/b".toList, "http://ex.com/b?utm_source=x".toList] := by
  refine ⟨by decide, by decide⟩

/-- C2 (amended).  A crawl with page budget 1 emits exactly one
PageRecord and scrapes only the seed, but the whole crawl equals the
single processing step of the seed, which includes the link-discovery
phase (links of the seed page are still extracted and enqueued). -/
theorem C2_theorem (web : Web) (base : Chars) (fuel : Nat) (h : 1 ≤ fuel) :
    (crawl_website web base 1 fuel).records.length = 1 ∧
    (crawl_website web base 1 fuel).scrapeLog = [normalize_url base] ∧
    crawl_website web base 1 fuel =
      processPage web (domainOf base) ⟨[normalize_url base], [], [], [], 0⟩
        (normalize_url base) := by
  obtain ⟨f, rfl⟩ : ∃ f, fuel = f + 1 := ⟨fuel - 1, by omega⟩
  have hstep : crawl_website web base 1 (f + 1) =
      processPage web (domainOf base) ⟨[normalize_url base], [], [], [], 0⟩
        (normalize_url base) := by
    unfold crawl_website
    rw [crawlLoop_scrape_step web (domainOf base) 1 f _ (normalize_url base) [] rfl
      (by simp) (by simp)]
    apply crawlLoop_stop
    rw [processPage_records]
    simp
  refine ⟨?_, ?_, hstep⟩
  · rw [hstep, processPage_records]
    simp
  · rw [hstep, processPage_scrapeLog]
    simp

theorem C2_witness :
    1 ≤ 5 ∧ (crawl_website webPair "http://ex.com".toList 1 5).records.length = 1 :=
  ⟨by decide, (C2_theorem webPair "http://ex.com".toList 5 (by decide)).1⟩

/-- C5.  The claim classifies every non-2xx status as a transport error
recorded with error text.  `raise_for_status` only raises for 400-599:
a 304 response with a non-HTML content type is recorded as the fixed
non-HTML placeholder record, with no error text in its content. -/
theorem C5_counterexample :
    scrape_page web304 "http://ex.com".toList "t0".toList "id0".toList =
      ⟨"t0".toList, "id0".toList, "http://ex.com".toList,
       "Non-HTML Content".toList, "Skipped non-HTML content".toList⟩ ∧
    ¬ ("Request error".toList.isPrefixOf
        (scrape_page web304 "http://ex.com".toList "t0".toList "id0".toList).content) := by
  refine ⟨by decide, by decide⟩

/-- C5 (amended).  A raised request exception, or a 4xx/5xx status, is
recorded as a PageRecord with the error text in its content; such an
error never aborts the crawl: the loop continues on the remaining
frontier unchanged, and a later queued URL is still fetched. -/
theorem C5_theorem :
    (∀ web u now idv msg, web u = .exn msg →
      scrape_page web u now idv = ⟨now, idv, u, [], "Request error: ".toList ++ msg⟩) ∧
    (∀ web u now idv status reason ctype hrefs o,
      web u = .resp status reason ctype hrefs o → 400 ≤ status → status < 600 →
      scrape_page web u now idv =
        ⟨now, idv, u, [], "Request error: ".toList ++ httpErrorMsg status reason u⟩) ∧
    (∀ web d mp fuel s u rest msg, s.frontier = u :: rest → u ∉ s.visited →
      s.records.length < mp → web u = .exn msg →
      crawlLoop web d mp (fuel + 1) s =
        crawlLoop web d mp fuel
          ⟨u :: s.visited, rest,
           s.records ++ [⟨genTime s.counter, genId s.counter, u, [],
             "Request error: ".toList ++ msg⟩],
           s.scrapeLog ++ [u], s.counter + 1⟩) ∧
    (∀ web d mp fuel s u1 u2 msg, s.frontier = [u1, u2] → u1 ∉ s.visited →
      u2 ∉ s.visited → u1 ≠ u2 → web u1 = .exn msg → s.records.length + 2 ≤ mp →
      2 ≤ fuel → u2 ∈ (crawlLoop web d mp fuel s).scrapeLog) := by
  have hexn : ∀ (web : Web) u now idv msg, web u = .exn msg →
      scrape_page web u now idv = ⟨now, idv, u, [], "Request error: ".toList ++ msg⟩ := by
    intro web u now idv msg h
    unfold scrape_page
    rw [h]
  have hstep : ∀ (web : Web) d mp fuel s u rest msg, s.frontier = u :: rest →
      u ∉ s.visited → s.records.length < mp → web u = .exn msg →
      crawlLoop web d mp (fuel + 1) s =
        crawlLoop web d mp fuel
          ⟨u :: s.visited, rest,
           s.records ++ [⟨genTime s.counter, genId s.counter, u, [],
             "Request error: ".toList ++ msg⟩],
           s.scrapeLog ++ [u], s.counter + 1⟩ := by
    intro web d mp fuel s u rest msg hf hv hb hw
    rw [crawlLoop_scrape_step web d mp fuel s u rest hf hv hb,
      processPage_exn web d _ u msg hw]
  refine ⟨hexn, ?_, hstep, ?_⟩
  · intro web u now idv status reason ctype hrefs o h h4 h6
    unfold scrape_page
    rw [h]
    dsimp only
    rw [if_pos ⟨h4, h6⟩]
  · intro web d mp fuel s u1 u2 msg hf hv1 hv2 hne hw hb hfuel
    obtain ⟨f, rfl⟩ : ∃ f, fuel = f + 1 + 1 := ⟨fuel - 2, by omega⟩
    rw [hstep web d mp (f + 1) s u1 [u2] msg hf hv1 (by omega) hw]
    rw [crawlLoop_scrape_step web d mp f _ u2 [] rfl
      (by simp only [List.mem_cons]; tauto) (by simp; omega)]
    have hpre := crawlLoop_scrapeLog_prefix web d mp f
      (processPage web d ⟨u2 :: u1 :: s.visited, [],
        s.records ++ [⟨genTime s.counter, genId s.counter, u1, [],
          "Request error: ".toList ++ msg⟩],
        s.scrapeLog ++ [u1], s.counter + 1⟩ u2)
    apply hpre.subset
    rw [processPage_scrapeLog]
    simp

theorem C5_witness :
    webExn "http://ex.com".toList = FetchOutcome.exn "boom".toList ∧
    scrape_page webExn "http://ex.com".toList "t0".toList "id0".toList =
      ⟨"t0".toList, "id0".toList, "http://ex.com".toList, [],
       "Request error: ".toList ++ "boom".toList⟩ :=
  ⟨rfl, C5_theorem.1 webExn "http://ex.com".toList "t0".toList "id0".toList
    "boom".toList rfl⟩

/-- C10.  A crawl whose page budget is at least 1 (as guaranteed by the
serving layer's validation) always emits at least one PageRecord: the
seed is popped, marked visited and scraped, and `scrape_page` returns a
record on every outcome, so the returned sequence is never empty. -/
theorem C10_theorem (web : Web) (base : Chars) (mp fuel : Nat)
    (hmp : 1 ≤ mp) (hf : 1 ≤ fuel) :
    (crawl_website web base mp fuel).records ≠ [] := by
  obtain ⟨f, rfl⟩ : ∃ f, fuel = f + 1 := ⟨fuel - 1, by omega⟩
  unfold crawl_website
  rw [crawlLoop_scrape_step web (domainOf base) mp f _ (normalize_url base) [] rfl
    (by simp) (by simpa using hmp)]
  intro hempty
  have hpre := crawlLoop_records_prefix web (domainOf base) mp f
    (processPage web (domainOf base) ⟨[normalize_url base], [], [], [], 0⟩
      (normalize_url base))
  rw [hempty] at hpre
  have := List.IsPrefix.length_le hpre
  rw [processPage_records] at this
  simp at this

theorem C10_witness :
    1 ≤ 3 ∧ (crawl_website webExn "http://ex.com".toList 3 3).records ≠ [] :=
  ⟨by decide, C10_theorem webExn "http://ex.com".toList 3 3 (by decide) (by decide)⟩

/-- C8.  `normalize_url` never fails: the claim says an unparseable URL
makes normalize fail with an InvalidURL error, but the source wraps the
body in `try/except` and returns the raw URL on a parse error.  The URL
`http://[::1` makes `urlparse` raise ("Invalid IPv6 URL"), yet
`normalize_url` returns it unchanged. -/
theorem C8_counterexample :
    pyUrlparse "http://[::1".toList = .error () ∧
    normalize_url "http://[::1".toList = "http://[::1".toList := by
  refine ⟨rfl, rfl⟩

/-- C8 (amended).  On every raw URL whose parse raises, `normalize_url`
does not fail: it catches the exception and returns the input string
unchanged. -/
theorem C8_theorem (url : Chars) (h : pyUrlparse url = .error ()) :
    normalize_url url = url := by
  unfold normalize_url
  rw [h]

theorem C8_witness :
    pyUrlparse "http://[::1".toList = .error () ∧
    normalize_url "http://[::1".toList = "http://[::1".toList :=
  ⟨rfl, C8_theorem "http://[::1".toList rfl⟩

/-- C9.  The claim describes the third scope case as the target domain
with a LEADING `www.` prefix stripped, but the source uses Python
`str.replace("www.", "")`, which removes every occurrence of the
substring: with target domain `a.www.b.com` the host `a.b.com` is
accepted by the code while the claim's predicate rejects it. -/
theorem C9_counterexample :
    is_same_domain "a.www.b.com".toList "http://a.b.com/x".toList = true ∧
    spec_in_scope "a.www.b.com".toList "http://a.b.com/x".toList = false := by
  refine ⟨by decide, by decide⟩

/-- C9 (amended).  `is_same_domain` returns true exactly when the URL
parses and its host equals the target domain, the target domain prefixed
with `www.`, or the target domain with every occurrence of the substring
`www.` removed; every URL whose parse raises yields false (the exception
is caught), and the claim's concrete examples hold. -/
theorem C9_theorem :
    (∀ d u pr, pyUrlparse u = .ok pr →
      (is_same_domain d u = true ↔
        (pr.netloc = d ∨ pr.netloc = 'w' :: 'w' :: 'w' :: '.' :: d ∨
          pr.netloc = pyReplace d "www.".toList []))) ∧
    (∀ d u, pyUrlparse u = .error () → is_same_domain d u = false) ∧
    is_same_domain "site.com".toList "https://www.site.com/x".toList = true ∧
    is_same_domain "site.com".toList "https://site.com/x".toList = true ∧
    is_same_domain "site.com".toList "https://other.com/x".toList = false ∧
    is_same_domain "site.com".toList "http://[::1".toList = false := by
  refine ⟨?_, ?_, by decide, by decide, by decide, by decide⟩
  · intro d u pr h
    unfold is_same_domain
    rw [h]
    simp
  · intro d u h
    unfold is_same_domain
    rw [h]

theorem C9_witness :
    pyUrlparse "http://xyz".toList =
      .ok ⟨"http".toList, "xyz".toList, [], [], [], []⟩ ∧
    (is_same_domain "xyz".toList "http://xyz".toList = true ↔
      (("xyz".toList : Chars) = "xyz".toList ∨
        ("xyz".toList : Chars) = 'w' :: 'w' :: 'w' :: '.' :: "xyz".toList ∨
        ("xyz".toList : Chars) = pyReplace "xyz".toList "www.".toList [])) :=
  ⟨rfl, C9_theorem.1 "xyz".toList "http://xyz".toList
    ⟨"http".toList, "xyz".toList, [], [], [], []⟩ rfl⟩

/-- C4.  `extract_content` is total in the model (the source wraps its
whole body in one `try` whose `except` builds a record): on an internal
extraction failure it returns a record embedding the exception message
in the content field, and every branch of the extraction ladder stamps
the record with the freshly generated id and UTC timestamp of this
call. -/
theorem C4_theorem :
    (∀ o url now idv, (extract_content o url now idv).id = idv ∧
      (extract_content o url now idv).created_at = now ∧
      (extract_content o url now idv).source_url = url) ∧
    (∀ o url now idv e, o.exc = some e →
      (extract_content o url now idv).content =
        "Error extracting content: ".toList ++ e) := by
  constructor
  · intro o url now idv
    obtain ⟨exc, tc, tm, st, sh, sm, par, bt, dt⟩ := o
    cases exc with
    | some e => exact ⟨rfl, rfl, rfl⟩
    | none =>
      cases tc with
      | none => exact ⟨rfl, rfl, rfl⟩
      | some ec =>
        unfold extract_content
        dsimp only
        split
        · exact ⟨rfl, rfl, rfl⟩
        · exact ⟨rfl, rfl, rfl⟩
  · intro o url now idv e h
    obtain ⟨exc, tc, tm, st, sh, sm, par, bt, dt⟩ := o
    simp only [ExtractOracle.exc] at h
    subst h
    rfl

theorem C4_witness :
    (⟨some "boom".toList, none, none, none, none, [], [], none, []⟩ :
        ExtractOracle).exc = some "boom".toList ∧
    (extract_content ⟨some "boom".toList, none, none, none, none, [], [], none, []⟩
        "http://ex.com".toList "t0".toList "id0".toList).content =
      "Error extracting content: ".toList ++ "boom".toList :=
  ⟨rfl, C4_theorem.2 ⟨some "boom".toList, none, none, none, none, [], [], none, []⟩
    "http://ex.com".toList "t0".toList "id0".toList "boom".toList rfl⟩

/-- C6.  Anything the lightweight normalization (`normalize_url`)
equates, the enhanced normalization
(`normalize_url_for_deduplication`) equates as well: on well-formed
component URLs, equality of `normalize_url` outputs implies equality of
`normalize_url_for_deduplication` outputs. -/
theorem C6_theorem {s1 h1 p1 s2 h2 p2 : Chars}
    {q1 q2 : List (Chars × Chars)} {f1 f2 : Option Chars}
    (hw1 : wfUrl s1 h1 p1 q1 f1) (hw2 : wfUrl s2 h2 p2 q2 f2)
    (heq : normalize_url (mkUrl s1 h1 p1 q1 f1) = normalize_url (mkUrl s2 h2 p2 q2 f2)) :
    normalize_url_for_deduplication (mkUrl s1 h1 p1 q1 f1) =
      normalize_url_for_deduplication (mkUrl s2 h2 p2 q2 f2) := by
  rw [normalize_url_mk hw1, normalize_url_mk hw2] at heq
  have hparse := congrArg pyUrlparse heq
  rw [urlparse_mk (wfUrl_norm hw1), urlparse_mk (wfUrl_norm hw2)] at hparse
  simp only [Except.ok.injEq, ParseResult.mk.injEq] at hparse
  obtain ⟨hs, hh, hp, -, hq, -⟩ := hparse
  have hs2 : pyLower s1 = pyLower s2 := by
    rw [← pyLower_idem s1, ← pyLower_idem s2]
    exact hs
  rw [dedup_mk hw1, dedup_mk hw2, hs2, hh, serializeQuery_lowerQ, serializeQuery_lowerQ,
    hq, rstripSlash_pyLower, rstripSlash_pyLower, ← rstripSlash_condRstrip p1,
    ← rstripSlash_condRstrip p2, hp]

/-- C6 witness: `http://ex.com/a/#frag` and `http://ex.com/a` have the
same lightweight normalization, hence the same enhanced one. -/
theorem C6_witness :
    normalize_url_for_deduplication
        (mkUrl "http".toList "ex.com".toList "/a/".toList [] (some "frag".toList)) =
      normalize_url_for_deduplication
        (mkUrl "http".toList "ex.com".toList "/a".toList [] none) :=
  C6_theorem (by unfold wfUrl; decide) (by unfold wfUrl; decide) (by decide)

/-- C3.  The claim says the tracking-parameter denylist "includes every
parameter matching `utm_*`".  It is a fixed list of 20 names: `utm_id`
matches `utm_*` but is not in it, so a URL differing only by `utm_id`
normalizes differently, while `utm_source` (which is in the list) is
dropped. -/
theorem C3_counterexample :
    normalize_url_for_deduplication "https://ex.com/a?utm_id=5".toList ≠
      normalize_url_for_deduplication "https://ex.com/a".toList ∧
    normalize_url_for_deduplication "https://ex.com/a?utm_source=5".toList =
      normalize_url_for_deduplication "https://ex.com/a".toList :=
  ⟨by decide, by decide⟩

/-- C3 (amended).  On well-formed component URLs the enhanced
normalization is invariant under: dropping the fragment, a trailing
slash on the path, re-casing scheme and host, and inserting a query
pair whose lower-cased key is in the fixed 20-name denylist (not every
`utm_*` name); and the concrete examples of the claim hold:
`https://ex.com/a/?utm_source=x#frag` and `https://EX.com/a` both map
to `https://ex.com/a`. -/
theorem C3_theorem :
    (∀ s h p q f, wfUrl s h p q f →
      normalize_url_for_deduplication (mkUrl s h p q f) =
        normalize_url_for_deduplication (mkUrl s h p q none)) ∧
    (∀ s h p q f, wfUrl s h p q f →
      normalize_url_for_deduplication (mkUrl s h (p ++ ['/']) q f) =
        normalize_url_for_deduplication (mkUrl s h p q f)) ∧
    (∀ s1 h1 s2 h2 p q f, wfUrl s1 h1 p q f → wfUrl s2 h2 p q f →
      pyLower s1 = pyLower s2 → pyLower h1 = pyLower h2 →
      normalize_url_for_deduplication (mkUrl s1 h1 p q f) =
        normalize_url_for_deduplication (mkUrl s2 h2 p q f)) ∧
    (∀ s h p q1 q2 k v f, wfUrl s h p (q1 ++ (k, v) :: q2) f →
      pyLower k ∈ trackingParams →
      normalize_url_for_deduplication (mkUrl s h p (q1 ++ (k, v) :: q2) f) =
        normalize_url_for_deduplication (mkUrl s h p (q1 ++ q2) f)) ∧
    normalize_url_for_deduplication "https://ex.com/a/?utm_source=x#frag".toList =
      "https://ex.com/a".toList ∧
    normalize_url_for_deduplication "https://EX.com/a".toList = "https://ex.com/a".toList := by
  refine ⟨?_, ?_, ?_, ?_, by decide, by decide⟩
  · intro s h p q f hw
    have hw2 : wfUrl s h p q none := ⟨hw.1, hw.2.1, hw.2.2.1, hw.2.2.2.1, rfl⟩
    rw [dedup_mk hw, dedup_mk hw2]
  · intro s h p q f hw
    have hw2 : wfUrl s h (p ++ ['/']) q f :=
      ⟨hw.1, hw.2.1, wfPathB_append_slash hw.2.2.1, hw.2.2.2.1, hw.2.2.2.2⟩
    have hps : pyLower (p ++ ['/']) = pyLower p ++ ['/'] := by
      rw [pyLower, pyLower, List.map_append, List.map_cons, List.map_nil,
        show charLower '/' = '/' from by decide]
    rw [dedup_mk hw2, dedup_mk hw, hps, rstripSlash_append_slash]
  · intro s1 h1 s2 h2 p q f hw1 hw2 hs hh
    rw [dedup_mk hw1, dedup_mk hw2, hs, hh]
  · intro s h p q1 q2 k v f hw hk
    have hcomp := wfQueryB_append_mid hw.2.2.2.1
    have hw2 : wfUrl s h p (q1 ++ q2) f :=
      ⟨hw.1, hw.2.1, hw.2.2.1, hcomp.1, hw.2.2.2.2⟩
    rw [dedup_mk hw, dedup_mk hw2, dedup_query_filter hw.2.2.2.1,
      dedup_query_filter hcomp.1, lowerQ_filter_mid hk]

/-- C3 witness: the four invariances at concrete inputs. -/
theorem C3_witness :
    normalize_url_for_deduplication (mkUrl "https".toList "ex.com".toList "/a".toList
        [("x".toList, "1".toList)] (some "frag".toList)) =
      normalize_url_for_deduplication (mkUrl "https".toList "ex.com".toList "/a".toList
        [("x".toList, "1".toList)] none) ∧
    normalize_url_for_deduplication (mkUrl "https".toList "ex.com".toList
        ("/a".toList ++ ['/']) [] none) =
      normalize_url_for_deduplication (mkUrl "https".toList "ex.com".toList "/a".toList
        [] none) ∧
    normalize_url_for_deduplication (mkUrl "HTTPS".toList "EX.com".toList "/a".toList
        [] none) =
      normalize_url_for_deduplication (mkUrl "https".toList "ex.com".toList "/a".toList
        [] none) ∧
    normalize_url_for_deduplication (mkUrl "https".toList "ex.com".toList "/a".toList
        ([] ++ ("utm_source".toList, "x".toList) :: [("x".toList, "1".toList)]) none) =
      normalize_url_for_deduplication (mkUrl "https".toList "ex.com".toList "/a".toList
        ([] ++ [("x".toList, "1".toList)]) none) :=
  ⟨C3_theorem.1 _ _ _ _ _ (by unfold wfUrl; decide),
    C3_theorem.2.1 _ _ _ _ _ (by unfold wfUrl; decide),
    C3_theorem.2.2.1 _ _ _ _ _ _ _ (by unfold wfUrl; decide) (by unfold wfUrl; decide)
      (by decide) (by decide),
    C3_theorem.2.2.2.1 _ _ _ [] [("x".toList, "1".toList)] _ _ _
      (by unfold wfUrl; decide) (by decide)⟩

end Scrap
